import Mathlib

/-!
# Verification of the file-transfer engine

A shallow embedding, in Lean 4, of the core of the `file-transfer-app`
repository: the local TCP file-transfer service (framed control/data
multiplex, code-based authentication, collision-free file naming, the
mDNS advertising lifecycle), the remote-mode windowed chunk sender and
the discovery browser.  Each definition is translated from the
TypeScript/JavaScript source; theorems at the end of the file settle
the specification claims against these definitions.

Conventions: wire bytes are `Nat` values (< 256 on real wires, but no
theorem needs the bound); JSON control frames are modelled as the exact
byte strings `JSON.stringify` produces for the frame objects built by
the source, and the receiving side's `JSON.parse`-plus-type-dispatch is
modelled by a decoder that recognises exactly those productions.
Progress/UI notifications (`webContents.send` of transfer-progress) are
pure observers and are not part of the event traces.
-/

set_option maxHeartbeats 1000000

set_option maxRecDepth 8000

namespace FileTransfer

/-! ## Byte-string utilities -/

/-- Bytes of a Lean string, one per character (the wire text is ASCII,
where UTF-8 bytes and code points coincide). -/
def strBytes (s : String) : List Nat := s.data.map Char.toNat

/-- Bytes back to a string (used when the receiver turns a frame body
into text with `Buffer.toString`). -/
def bytesToStr (bs : List Nat) : String := String.mk (bs.map Char.ofNat)

/-- Decimal rendering of a natural number (fuelled so that it reduces
by iota), as the byte string `JSON.stringify` emits for a non-negative
integer. -/
def natDecAux : Nat → Nat → List Nat
  | 0, _ => []
  | fuel + 1, n =>
    if n < 10 then [48 + n] else natDecAux fuel (n / 10) ++ [48 + n % 10]

def natDecBytes (n : Nat) : List Nat := natDecAux (n + 1) n

theorem natDecAux_congr : ∀ k f1 f2 : Nat, k < f1 → k < f2 →
    natDecAux f1 k = natDecAux f2 k := by
  intro k
  induction k using Nat.strong_induction_on with
  | _ k ih =>
    intro f1 f2 h1 h2
    match f1, f2 with
    | f1 + 1, f2 + 1 =>
      show natDecAux (f1 + 1) k = natDecAux (f2 + 1) k
      unfold natDecAux
      by_cases hk : k < 10
      · rw [if_pos hk, if_pos hk]
      · rw [if_neg hk, if_neg hk]
        congr 1
        exact ih (k / 10) (by omega) f1 f2 (by omega) (by omega)

theorem natDecBytes_eq (n : Nat) :
    natDecBytes n
      = if n < 10 then [48 + n] else natDecBytes (n / 10) ++ [48 + n % 10] := by
  show natDecAux (n + 1) n = _
  unfold natDecAux
  by_cases h : n < 10
  · rw [if_pos h, if_pos h]
  · rw [if_neg h, if_neg h]
    congr 1
    exact natDecAux_congr (n / 10) n (n / 10 + 1) (by omega) (by omega)

theorem natDecBytes_ne_nil (n : Nat) : natDecBytes n ≠ [] := by
  rw [natDecBytes_eq]
  split <;> simp

theorem natDecBytes_digits (n : Nat) :
    ∀ b ∈ natDecBytes n, 48 ≤ b ∧ b ≤ 57 := by
  induction n using Nat.strong_induction_on with
  | _ n ih =>
    rw [natDecBytes_eq]
    by_cases h : n < 10
    · rw [if_pos h]
      intro b hb
      simp at hb
      omega
    · rw [if_neg h]
      intro b hb
      rcases List.mem_append.1 hb with h1 | h1
      · exact ih (n / 10) (by omega) b h1
      · simp at h1
        have : n % 10 < 10 := Nat.mod_lt _ (by omega)
        omega

/-- Parse a run of decimal digit bytes, accumulator style. -/
def parseDecAux (acc : Nat) : List Nat → Nat × List Nat
  | [] => (acc, [])
  | b :: rest =>
    if 48 ≤ b ∧ b ≤ 57 then parseDecAux (acc * 10 + (b - 48)) rest
    else (acc, b :: rest)

theorem parseDecAux_append (n : Nat) :
    ∀ acc rest, parseDecAux acc (natDecBytes n ++ rest)
      = parseDecAux (acc * 10 ^ (natDecBytes n).length + n) rest := by
  induction n using Nat.strong_induction_on with
  | _ n ih0 =>
    intro acc rest
    by_cases h : n < 10
    ·
      have h1 : natDecBytes n = [48 + n] := by rw [natDecBytes_eq, if_pos h]
      rw [h1]
      have hc : 48 ≤ 48 + n ∧ 48 + n ≤ 57 := by omega
      simp only [List.singleton_append, List.length_singleton, pow_one, parseDecAux]
      rw [if_pos hc]
      congr 1
      omega
    ·
      have ih := ih0 (n / 10) (by omega)
      have h1 : natDecBytes n = natDecBytes (n / 10) ++ [48 + n % 10] := by
        rw [natDecBytes_eq, if_neg h]
      rw [h1, List.append_assoc, List.singleton_append, ih]
      have hd : 48 ≤ 48 + n % 10 ∧ 48 + n % 10 ≤ 57 := by
        have : n % 10 < 10 := Nat.mod_lt _ (by omega)
        omega
      simp only [parseDecAux]
      rw [if_pos hd]
      have key : ∀ x : Nat, (x + n / 10) * 10 + (48 + n % 10 - 48) = x * 10 + n := by
        intro x; omega
      rw [key]
      congr 1
      simp [List.length_append, pow_succ]
      ring

/-- A digit run renders and re-parses to the same number (the byte after
the run must not be a digit). -/
theorem parseDec_natDecBytes (n : Nat) (rest : List Nat)
    (hrest : ∀ b, rest.head? = some b → ¬(48 ≤ b ∧ b ≤ 57)) :
    parseDecAux 0 (natDecBytes n ++ rest) = (n, rest) := by
  rw [parseDecAux_append]
  simp only [Nat.zero_mul, Nat.zero_add]
  cases rest with
  | nil => simp [parseDecAux]
  | cons b bs =>
    have := hrest b rfl
    simp [parseDecAux, this]

/-! ## The 4-null-byte delimiter -/

/-- The control-frame delimiter `\x00\x00\x00\x00`. -/
def delim : List Nat := [0, 0, 0, 0]

/-- First index at which the 4-null-byte delimiter occurs
(`Buffer.indexOf(delimiterBuffer)`), if any. -/
def findDelim : List Nat → Option Nat
  | [] => none
  | b :: rest =>
    if (b :: rest).take 4 = delim then some 0
    else (findDelim rest).map (· + 1)

theorem findDelim_cons (b : Nat) (rest : List Nat) :
    findDelim (b :: rest)
      = if (b :: rest).take 4 = delim then some 0
        else (findDelim rest).map (· + 1) := rfl

theorem findDelim_bound {l : List Nat} {i : Nat} (h : findDelim l = some i) :
    i + 4 ≤ l.length := by
  induction l generalizing i with
  | nil => simp [findDelim] at h
  | cons b rest ih =>
    rw [findDelim_cons] at h
    split at h
    · next heq =>
      have h4 : ((b :: rest).take 4).length = 4 := by rw [heq]; rfl
      rw [List.length_take] at h4
      simp at h
      omega
    · simp at h
      obtain ⟨j, hj, hji⟩ := h
      have := ih hj
      simp
      omega

theorem findDelim_append_of_some {l : List Nat} {i : Nat} (c : List Nat)
    (h : findDelim l = some i) : findDelim (l ++ c) = some i := by
  induction l generalizing i with
  | nil => simp [findDelim] at h
  | cons b rest ih =>
    have hb : 4 ≤ (b :: rest).length := by have := findDelim_bound h; omega
    have htake : (b :: (rest ++ c)).take 4 = (b :: rest).take 4 := by
      rw [← List.cons_append, List.take_append_of_le_length hb]
    rw [List.cons_append, findDelim_cons, htake]
    rw [findDelim_cons] at h
    split at h
    · next heq => rw [if_pos heq]; exact h
    · next hne =>
      rw [if_neg hne]
      simp at h ⊢
      obtain ⟨j, hj, hji⟩ := h
      exact ⟨j, ih hj, hji⟩

/-- In `body ++ delim ++ rest` with a null-free body, the first
delimiter occurrence is exactly at the end of the body — regardless of
what `rest` holds (in particular `rest` may be raw payload full of null
bytes). -/
theorem findDelim_body (body rest : List Nat) (h : ∀ b ∈ body, b ≠ 0) :
    findDelim (body ++ delim ++ rest) = some body.length := by
  induction body with
  | nil =>
    simp only [List.nil_append, List.length_nil]
    show findDelim (0 :: (0 :: 0 :: 0 :: rest)) = some 0
    rw [findDelim_cons]
    simp [delim]
  | cons b bs ih =>
    have hb : b ≠ 0 := h b (by simp)
    simp only [List.cons_append]
    rw [findDelim_cons]
    have htake : (b :: (bs ++ delim ++ rest)).take 4 ≠ delim := by
      intro hc
      have hx : (b :: (bs ++ delim ++ rest)).take 4
          = b :: ((bs ++ delim ++ rest).take 3) := rfl
      rw [hx] at hc
      simp [delim] at hc
      exact hb hc.1
    simp only [List.append_assoc] at htake ⊢
    rw [if_neg htake]
    have := ih (fun x hx => h x (by simp [hx]))
    simp only [List.append_assoc] at this
    rw [this]
    simp

/-! ## Control-frame codec

The sender builds control frames with `JSON.stringify` on object
literals; the byte strings below are exactly those productions (key
order is object-literal insertion order).  The receiver runs
`JSON.parse` on the delimiter-separated body and dispatches on
`json.type`; `decodeCtrl` recognises the productions the protocol
uses. -/

/-- `TransferMetadata` from `localFileTransfer.interface.ts`. -/
structure TransferMetadata where
  fileName : String
  fileSize : Nat
  currentFile : Nat
  totalFiles : Nat
deriving Repr, DecidableEq

def metaHead : String := "\x7b\"type\":\"metadata\",\"data\":\x7b\"fileName\":\""
def sizeLit : String := ",\"fileSize\":"
def curLit : String := ",\"currentFile\":"
def totLit : String := ",\"totalFiles\":"
def tailLit : String := "\x7d\x7d"

/-- Bytes of `JSON.stringify({type:'metadata', data: m})` as sent in
`sendFile` (the `34` is the quote closing the file name). -/
def metaFrameBytes (m : TransferMetadata) : List Nat :=
  strBytes metaHead ++ (strBytes m.fileName
    ++ 34 :: (strBytes sizeLit ++ (natDecBytes m.fileSize
    ++ (strBytes curLit ++ (natDecBytes m.currentFile
    ++ (strBytes totLit ++ (natDecBytes m.totalFiles
    ++ strBytes tailLit)))))))

/-- Bytes of `JSON.stringify({type:'file-end'})`. -/
def fileEndBytes : List Nat := strBytes "\x7b\"type\":\"file-end\"\x7d"

/-- Bytes of `JSON.stringify({type:'file-saved'})`. -/
def fileSavedBytes : List Nat := strBytes "\x7b\"type\":\"file-saved\"\x7d"

/-- A file name that `JSON.stringify` serialises verbatim (printable
ASCII, no quote, no backslash), stated on its wire bytes. -/
def PlainName (s : String) : Prop :=
  ∀ b ∈ strBytes s, 32 ≤ b ∧ b < 127 ∧ b ≠ 34 ∧ b ≠ 92

instance (s : String) : Decidable (PlainName s) := by
  unfold PlainName; infer_instance

/-- Control messages the local protocol distinguishes
(`json.type` dispatch in `processDataBuffer`). -/
inductive Ctrl
  | metadata (m : TransferMetadata)
  | fileEnd
  | fileSaved
deriving Repr, DecidableEq

/-- Drop an expected literal head from a byte list. -/
def dropLead : List Nat → List Nat → Option (List Nat)
  | [], l => some l
  | _ :: _, [] => none
  | p :: ps, b :: bs => if b = p then dropLead ps bs else none

theorem dropLead_append (pat rest : List Nat) :
    dropLead pat (pat ++ rest) = some rest := by
  induction pat with
  | nil => rfl
  | cons p ps ih => simp [dropLead, ih]

/-- Scan a JSON string body up to its closing quote (byte 34). -/
def takeName : List Nat → Option (List Nat × List Nat)
  | [] => none
  | b :: bs =>
    if b = 34 then some ([], bs)
    else match takeName bs with
      | some (nm, rest) => some (b :: nm, rest)
      | none => none

theorem takeName_cons (b : Nat) (bs : List Nat) :
    takeName (b :: bs)
      = if b = 34 then some ([], bs)
        else match takeName bs with
          | some (nm, rest) => some (b :: nm, rest)
          | none => none := rfl

theorem takeName_append (nm rest : List Nat) (h : 34 ∉ nm) :
    takeName (nm ++ 34 :: rest) = some (nm, rest) := by
  induction nm with
  | nil => rfl
  | cons b bs ih =>
    have hb : b ≠ 34 := fun hc => h (by simp [hc])
    rw [List.cons_append, takeName_cons, if_neg hb, ih (fun hc => h (by simp [hc]))]

/-- Parse a non-empty decimal digit run. -/
def parseDecNE (l : List Nat) : Option (Nat × List Nat) :=
  match l with
  | [] => none
  | b :: _ => if 48 ≤ b ∧ b ≤ 57 then some (parseDecAux 0 l) else none

theorem parseDecNE_natDecBytes (n : Nat) (rest : List Nat)
    (hrest : ∀ b, rest.head? = some b → ¬(48 ≤ b ∧ b ≤ 57)) :
    parseDecNE (natDecBytes n ++ rest) = some (n, rest) := by
  cases h1 : natDecBytes n with
  | nil => exact absurd h1 (natDecBytes_ne_nil n)
  | cons b bs =>
    have hdig : 48 ≤ b ∧ b ≤ 57 := natDecBytes_digits n b (by rw [h1]; simp)
    have := parseDec_natDecBytes n rest hrest
    rw [h1] at this
    simp only [List.cons_append] at this ⊢
    simp [parseDecNE, hdig, this]

/-- `JSON.parse` + `json.type` dispatch for the local protocol's frame
bodies: recognises exactly the three productions the peers emit. -/
def decodeCtrl (body : List Nat) : Option Ctrl :=
  if body = fileEndBytes then some .fileEnd
  else if body = fileSavedBytes then some .fileSaved
  else match dropLead (strBytes metaHead) body with
    | none => none
    | some r1 =>
      match takeName r1 with
      | none => none
      | some (nm, r2) =>
        match dropLead (strBytes sizeLit) r2 with
        | none => none
        | some r3 =>
          match parseDecNE r3 with
          | none => none
          | some (sz, r4) =>
            match dropLead (strBytes curLit) r4 with
            | none => none
            | some r5 =>
              match parseDecNE r5 with
              | none => none
              | some (cur, r6) =>
                match dropLead (strBytes totLit) r6 with
                | none => none
                | some r7 =>
                  match parseDecNE r7 with
                  | none => none
                  | some (tot, r8) =>
                    if r8 = strBytes tailLit then
                      some (.metadata ⟨bytesToStr nm, sz, cur, tot⟩)
                    else none

theorem decode_fileEnd : decodeCtrl fileEndBytes = some .fileEnd := by
  simp [decodeCtrl]

theorem decode_fileSaved : decodeCtrl fileSavedBytes = some .fileSaved := by
  have : fileSavedBytes ≠ fileEndBytes := by decide
  simp [decodeCtrl, this]

theorem bytesToStr_strBytes (s : String) : bytesToStr (strBytes s) = s := by
  cases s with
  | mk data =>
    simp [bytesToStr, strBytes, List.map_map, Function.comp_def, Char.ofNat_toNat]

theorem head?_append_of_some {α : Type} {l : List α} {a : α}
    (h : l.head? = some a) (l' : List α) : (l ++ l').head? = some a := by
  cases l with
  | nil => simp at h
  | cons x xs => simpa using h

theorem parseDecNE_comma (n : Nat) (x : List Nat) :
    parseDecNE (natDecBytes n ++ (strBytes curLit ++ x))
      = some (n, strBytes curLit ++ x) := by
  apply parseDecNE_natDecBytes
  intro b hb
  rw [head?_append_of_some (show (strBytes curLit).head? = some 44 by decide)] at hb
  simp at hb
  omega

theorem parseDecNE_comma2 (n : Nat) (x : List Nat) :
    parseDecNE (natDecBytes n ++ (strBytes totLit ++ x))
      = some (n, strBytes totLit ++ x) := by
  apply parseDecNE_natDecBytes
  intro b hb
  rw [head?_append_of_some (show (strBytes totLit).head? = some 44 by decide)] at hb
  simp at hb
  omega

theorem parseDecNE_brace (n : Nat) :
    parseDecNE (natDecBytes n ++ strBytes tailLit)
      = some (n, strBytes tailLit) := by
  apply parseDecNE_natDecBytes
  intro b hb
  rw [show (strBytes tailLit).head? = some 125 from by decide] at hb
  simp at hb
  omega

theorem metaFrame_length (m : TransferMetadata) :
    22 ≤ (metaFrameBytes m).length := by
  have h1 : 22 ≤ (strBytes metaHead).length := by decide
  unfold metaFrameBytes
  simp only [List.length_append, List.length_cons]
  omega

theorem decode_metaFrame (m : TransferMetadata) (h : PlainName m.fileName) :
    decodeCtrl (metaFrameBytes m) = some (.metadata m) := by
  have hne1 : metaFrameBytes m ≠ fileEndBytes := by
    intro hc
    have := metaFrame_length m
    rw [hc] at this
    revert this
    decide
  have hne2 : metaFrameBytes m ≠ fileSavedBytes := by
    intro hc
    have := metaFrame_length m
    rw [hc] at this
    revert this
    decide
  have hnm : (34 : Nat) ∉ strBytes m.fileName := by
    intro hc
    exact (h 34 hc).2.2.1 rfl
  unfold decodeCtrl
  rw [if_neg hne1, if_neg hne2]
  unfold metaFrameBytes
  simp only [dropLead_append, takeName_append _ _ hnm, parseDecNE_comma,
    parseDecNE_comma2, parseDecNE_brace, dropLead_append, if_pos rfl,
    bytesToStr_strBytes, if_true]

/-! ## The buffer-processing loop (`processDataBuffer`)

State fields mirror `LocalFileTransferService`: `isReceiving`,
`currentFileMetadata`, `receivedBytes`, `receivingBuffer`, `dataBuffer`.
`stepBuf` is one iteration of the `while (true)` loop; `runBuf` drains
the buffer until a `break`.  A `break` taken because the buffer holds
no complete message / no payload bytes is a *clean* stop (`true`); a
`break` after a malformed or unexpected control frame is an error stop
(`false`).  The `saved` event stands for `saveReceivedFile` (write the
file, notify, send the `file-saved` ack frame — the model assumes the
disk write succeeds); `ackSaved` is the sender-side branch resolving
`fileSavedResolver`. -/

inductive REv
  | saved (m : TransferMetadata) (bytes : List Nat)
  | ackSaved
deriving Repr, DecidableEq

structure RecvSt where
  isReceiving : Bool
  currentFileMetadata : Option TransferMetadata
  receivedBytes : Nat
  receivingBuffer : List Nat
  dataBuf : List Nat
deriving Repr, DecidableEq

def initRecv : RecvSt := ⟨false, none, 0, [], []⟩

inductive StepRes
  | cont (s : RecvSt) (e : Option REv)
  | stop (s : RecvSt) (clean : Bool)
deriving Repr, DecidableEq

/-- One iteration of the `while (true)` loop of `processDataBuffer`. -/
def stepBuf (s : RecvSt) : StepRes :=
  match s.isReceiving, s.currentFileMetadata with
  | true, some m =>
    if s.receivedBytes = m.fileSize then
      match findDelim s.dataBuf with
      | some i =>
        match decodeCtrl (s.dataBuf.take i) with
        | some .fileEnd =>
          .cont ⟨false, none, 0, [], s.dataBuf.drop (i + 4)⟩
            (some (.saved m s.receivingBuffer))
        | _ => .stop { s with dataBuf := s.dataBuf.drop (i + 4) } false
      | none => .stop s true
    else
      if min (m.fileSize - s.receivedBytes) s.dataBuf.length = 0 then .stop s true
      else
        .cont { s with
          receivingBuffer := s.receivingBuffer
            ++ s.dataBuf.take (min (m.fileSize - s.receivedBytes) s.dataBuf.length),
          receivedBytes := s.receivedBytes
            + min (m.fileSize - s.receivedBytes) s.dataBuf.length,
          dataBuf := s.dataBuf.drop
            (min (m.fileSize - s.receivedBytes) s.dataBuf.length) } none
  | _, _ =>
    match findDelim s.dataBuf with
    | some i =>
      match decodeCtrl (s.dataBuf.take i) with
      | some (.metadata m) => .cont ⟨true, some m, 0, [], s.dataBuf.drop (i + 4)⟩ none
      | some .fileSaved => .cont { s with dataBuf := s.dataBuf.drop (i + 4) } (some .ackSaved)
      | some .fileEnd => .cont { s with dataBuf := s.dataBuf.drop (i + 4) } none
      | none => .stop { s with dataBuf := s.dataBuf.drop (i + 4) } false
    | none => .stop s true

theorem stepBuf_cont_length {s s' : RecvSt} {e : Option REv}
    (h : stepBuf s = .cont s' e) : s'.dataBuf.length < s.dataBuf.length := by
  unfold stepBuf at h
  split at h
  · next m =>
    split at h
    · split at h
      · next i hfd =>
        have hb := findDelim_bound hfd
        split at h <;> cases h <;> simp [List.length_drop] <;> omega
      · cases h
    · split at h
      · cases h
      · next hk =>
        cases h
        simp [List.length_drop]
        omega
  · split at h
    · next i hfd =>
      have hb := findDelim_bound hfd
      split at h <;> cases h <;> simp [List.length_drop] <;> omega
    · cases h

structure RunRes where
  st : RecvSt
  evs : List REv
  clean : Bool
deriving Repr, DecidableEq

/-- Drain the accumulated buffer: iterate `stepBuf` until a `break`. -/
def runBuf (s : RecvSt) : RunRes :=
  match h : stepBuf s with
  | .cont s' e =>
    let r := runBuf s'
    ⟨r.st, e.toList ++ r.evs, r.clean⟩
  | .stop s' c => ⟨s', [], c⟩
termination_by s.dataBuf.length
decreasing_by exact stepBuf_cont_length h

theorem runBuf_cont {s s' : RecvSt} {e : Option REv}
    (h : stepBuf s = .cont s' e) :
    runBuf s = ⟨(runBuf s').st, e.toList ++ (runBuf s').evs, (runBuf s').clean⟩ := by
  rw [runBuf]
  split
  · next s'' e'' heq =>
    rw [h] at heq
    injection heq with h1 h2
    subst h1; subst h2
    rfl
  · next s'' c'' heq =>
    rw [h] at heq
    cases heq

theorem runBuf_stop {s s' : RecvSt} {c : Bool}
    (h : stepBuf s = .stop s' c) : runBuf s = ⟨s', [], c⟩ := by
  rw [runBuf]
  split
  · next s'' e'' heq =>
    rw [h] at heq
    cases heq
  · next s'' c'' heq =>
    rw [h] at heq
    injection heq with h1 h2
    subst h1; subst h2
    rfl

/-- Append an incoming chunk to `dataBuffer` (the socket `data`
handler does this before calling `processDataBuffer`). -/
def appB (s : RecvSt) (c : List Nat) : RecvSt := { s with dataBuf := s.dataBuf ++ c }

/-- One socket `data` event: append the chunk, then drain. -/
def ingest (s : RecvSt) (c : List Nat) : RunRes := runBuf (appB s c)

/-- A whole sequence of `data` events. -/
def ingestList (s : RecvSt) : List (List Nat) → RunRes
  | [] => ⟨s, [], true⟩
  | c :: cs =>
    let r := ingest s c
    let r' := ingestList r.st cs
    ⟨r'.st, r.evs ++ r'.evs, r.clean && r'.clean⟩

@[simp] theorem appB_isReceiving (s : RecvSt) (c : List Nat) :
    (appB s c).isReceiving = s.isReceiving := rfl

@[simp] theorem appB_meta (s : RecvSt) (c : List Nat) :
    (appB s c).currentFileMetadata = s.currentFileMetadata := rfl

@[simp] theorem appB_receivedBytes (s : RecvSt) (c : List Nat) :
    (appB s c).receivedBytes = s.receivedBytes := rfl

@[simp] theorem appB_receivingBuffer (s : RecvSt) (c : List Nat) :
    (appB s c).receivingBuffer = s.receivingBuffer := rfl

@[simp] theorem appB_dataBuf (s : RecvSt) (c : List Nat) :
    (appB s c).dataBuf = s.dataBuf ++ c := rfl

@[simp] theorem appB_nil (s : RecvSt) : appB s [] = s := by
  simp [appB]

theorem take_append_le {α : Type} (l₁ l₂ : List α) (n : Nat) (h : n ≤ l₁.length) :
    (l₁ ++ l₂).take n = l₁.take n := by
  rw [List.take_append_eq_append_take]
  simp [Nat.sub_eq_zero_of_le h]

theorem drop_append_le {α : Type} (l₁ l₂ : List α) (n : Nat) (h : n ≤ l₁.length) :
    (l₁ ++ l₂).drop n = l₁.drop n ++ l₂ := by
  rw [List.drop_append_eq_append_drop]
  simp [Nat.sub_eq_zero_of_le h]

theorem take_append_add {α : Type} (l₁ l₂ : List α) (n : Nat) :
    (l₁ ++ l₂).take (l₁.length + n) = l₁ ++ l₂.take n := by
  rw [List.take_append_eq_append_take]
  simp [List.take_of_length_le]

theorem drop_append_add {α : Type} (l₁ l₂ : List α) (n : Nat) :
    (l₁ ++ l₂).drop (l₁.length + n) = l₂.drop n := by
  rw [List.drop_append_eq_append_drop]
  simp [List.drop_of_length_le]

/-- A clean `break` leaves the state untouched (all `stop _ true`
branches of `stepBuf` return `s` itself). -/
theorem stepBuf_stop_true {s s₁ : RecvSt} (h : stepBuf s = .stop s₁ true) :
    s₁ = s := by
  unfold stepBuf at h
  split at h
  · split at h
    · split at h
      · split at h
        · cases h
        · injection h with h1 h2; simp at h2
      · injection h with h1 h2; exact h1.symm
    · split at h
      · injection h with h1 h2; exact h1.symm
      · cases h
  · split at h
    · split at h
      · cases h
      · cases h
      · cases h
      · injection h with h1 h2; simp at h2
    · injection h with h1 h2; exact h1.symm

theorem stepBuf_of_payload {s : RecvSt} {m : TransferMetadata}
    (h1 : s.isReceiving = true) (h2 : s.currentFileMetadata = some m) :
    stepBuf s =
      if s.receivedBytes = m.fileSize then
        match findDelim s.dataBuf with
        | some i =>
          match decodeCtrl (s.dataBuf.take i) with
          | some .fileEnd =>
            .cont ⟨false, none, 0, [], s.dataBuf.drop (i + 4)⟩
              (some (.saved m s.receivingBuffer))
          | _ => .stop { s with dataBuf := s.dataBuf.drop (i + 4) } false
        | none => .stop s true
      else
        if min (m.fileSize - s.receivedBytes) s.dataBuf.length = 0 then .stop s true
        else
          .cont { s with
            receivingBuffer := s.receivingBuffer
              ++ s.dataBuf.take (min (m.fileSize - s.receivedBytes) s.dataBuf.length),
            receivedBytes := s.receivedBytes
              + min (m.fileSize - s.receivedBytes) s.dataBuf.length,
            dataBuf := s.dataBuf.drop
              (min (m.fileSize - s.receivedBytes) s.dataBuf.length) } none := by
  unfold stepBuf
  rw [h1, h2]

theorem stepBuf_of_ctrl {s : RecvSt}
    (h : s.isReceiving = false ∨ s.currentFileMetadata = none) :
    stepBuf s =
      match findDelim s.dataBuf with
      | some i =>
        match decodeCtrl (s.dataBuf.take i) with
        | some (.metadata m) => .cont ⟨true, some m, 0, [], s.dataBuf.drop (i + 4)⟩ none
        | some .fileSaved => .cont { s with dataBuf := s.dataBuf.drop (i + 4) } (some .ackSaved)
        | some .fileEnd => .cont { s with dataBuf := s.dataBuf.drop (i + 4) } none
        | none => .stop { s with dataBuf := s.dataBuf.drop (i + 4) } false
      | none => .stop s true := by
  unfold stepBuf
  rcases h with h | h
  · rw [h]
  · rw [h]
    cases s.isReceiving <;> rfl

/-- How one loop iteration behaves when the buffer is extended: a clean
stop leaves the state untouched; an error stop persists (same message,
same failure); a `continue` either performs the identical transition on
the extended buffer, or it was a partial payload read that the extended
run absorbs into one bigger read. -/
theorem stepBuf_trichotomy (s : RecvSt) (c : List Nat) :
    stepBuf s = .stop s true
  ∨ (∃ s₁, stepBuf s = .stop s₁ false ∧ stepBuf (appB s c) = .stop (appB s₁ c) false)
  ∨ (∃ s' e, stepBuf s = .cont s' e ∧
      (stepBuf (appB s c) = .cont (appB s' c) e
       ∨ (e = none ∧ stepBuf s' = .stop s' true
          ∧ runBuf (appB s c) = runBuf (appB s' c)))) := by
  by_cases hpay : s.isReceiving = true ∧ s.currentFileMetadata ≠ none
  case pos =>
    obtain ⟨hrecv, hmeta0⟩ := hpay
    obtain ⟨m, hmeta⟩ : ∃ m, s.currentFileMetadata = some m := by
      cases hm : s.currentFileMetadata with
      | none => exact absurd hm hmeta0
      | some m => exact ⟨m, rfl⟩
    have happ := stepBuf_of_payload (s := appB s c) (m := m) hrecv hmeta
    simp only [appB_isReceiving, appB_meta, appB_receivedBytes,
      appB_receivingBuffer, appB_dataBuf] at happ
    rw [stepBuf_of_payload hrecv hmeta]
    by_cases hrb : s.receivedBytes = m.fileSize
    · rw [if_pos hrb]
      rw [if_pos hrb] at happ
      cases hfd : findDelim s.dataBuf with
      | none => left; rfl
      | some i =>
        have hbd := findDelim_bound hfd
        have hfd' : findDelim (s.dataBuf ++ c) = some i := findDelim_append_of_some c hfd
        have htk : (s.dataBuf ++ c).take i = s.dataBuf.take i :=
          take_append_le _ _ _ (by omega)
        have hdr : (s.dataBuf ++ c).drop (i + 4) = s.dataBuf.drop (i + 4) ++ c :=
          drop_append_le _ _ _ (by omega)
        simp only [hfd'] at happ
        rw [htk, hdr] at happ
        cases hdec : decodeCtrl (s.dataBuf.take i) with
        | some ctrl =>
          cases ctrl with
          | fileEnd =>
            right; right
            refine ⟨⟨false, none, 0, [], s.dataBuf.drop (i + 4)⟩,
              some (.saved m s.receivingBuffer), ?_, Or.inl ?_⟩
            · simp only [hdec]
            · simp only [hdec] at happ
              rw [happ]
              rfl
          | metadata m2 =>
            right; left
            refine ⟨{ s with dataBuf := s.dataBuf.drop (i + 4) }, ?_, ?_⟩
            · simp only [hdec]
            · simp only [hdec] at happ
              rw [happ]
              rfl
          | fileSaved =>
            right; left
            refine ⟨{ s with dataBuf := s.dataBuf.drop (i + 4) }, ?_, ?_⟩
            · simp only [hdec]
            · simp only [hdec] at happ
              rw [happ]
              rfl
        | none =>
          right; left
          refine ⟨{ s with dataBuf := s.dataBuf.drop (i + 4) }, ?_, ?_⟩
          · simp only [hdec]
          · simp only [hdec] at happ
            rw [happ]
            rfl
    · rw [if_neg hrb]
      rw [if_neg hrb] at happ
      by_cases hk : min (m.fileSize - s.receivedBytes) s.dataBuf.length = 0
      · left; rw [if_pos hk]
      · rw [if_neg hk]
        by_cases hrem : m.fileSize - s.receivedBytes ≤ s.dataBuf.length
        · -- aligned: the whole remaining payload run fits in the buffer
          have hmin : min (m.fileSize - s.receivedBytes) s.dataBuf.length
              = m.fileSize - s.receivedBytes := Nat.min_eq_left hrem
          have hmin' : min (m.fileSize - s.receivedBytes) (s.dataBuf ++ c).length
              = m.fileSize - s.receivedBytes := by
            simp only [List.length_append]
            omega
          have hk' : ¬ min (m.fileSize - s.receivedBytes) (s.dataBuf ++ c).length = 0 := by
            rw [hmin']
            rw [hmin] at hk
            exact hk
          rw [if_neg hk'] at happ
          rw [hmin] at hk
          rw [hmin]
          rw [hmin'] at happ
          have htk : (s.dataBuf ++ c).take (m.fileSize - s.receivedBytes)
              = s.dataBuf.take (m.fileSize - s.receivedBytes) :=
            take_append_le _ _ _ hrem
          have hdr : (s.dataBuf ++ c).drop (m.fileSize - s.receivedBytes)
              = s.dataBuf.drop (m.fileSize - s.receivedBytes) ++ c :=
            drop_append_le _ _ _ hrem
          rw [htk, hdr] at happ
          right; right
          refine ⟨_, none, rfl, Or.inl ?_⟩
          rw [happ]
          rfl
        · -- underrun: the buffer is consumed whole, more payload pending
          push_neg at hrem
          have hmin : min (m.fileSize - s.receivedBytes) s.dataBuf.length
              = s.dataBuf.length := Nat.min_eq_right (Nat.le_of_lt hrem)
          rw [hmin]
          simp only [List.take_length, List.drop_length]
          right; right
          refine ⟨{ s with
              receivingBuffer := s.receivingBuffer ++ s.dataBuf,
              receivedBytes := s.receivedBytes + s.dataBuf.length,
              dataBuf := [] }, none, rfl, Or.inr ⟨rfl, ?_, ?_⟩⟩
          · -- the continuation state is itself a clean stop
            rw [stepBuf_of_payload (s := { s with
                receivingBuffer := s.receivingBuffer ++ s.dataBuf,
                receivedBytes := s.receivedBytes + s.dataBuf.length,
                dataBuf := [] }) (m := m) hrecv hmeta]
            have hne : ¬ s.receivedBytes + s.dataBuf.length = m.fileSize := by omega
            rw [if_neg hne]
            simp
          · -- draining the extended buffer = draining from the absorbed state
            have hstep : stepBuf s = .cont { s with
                receivingBuffer := s.receivingBuffer ++ s.dataBuf,
                receivedBytes := s.receivedBytes + s.dataBuf.length,
                dataBuf := [] } none := by
              rw [stepBuf_of_payload hrecv hmeta, if_neg hrb, if_neg hk, hmin]
              simp only [List.take_length, List.drop_length]
            by_cases hcn : c = []
            · subst hcn
              rw [appB_nil, appB_nil, runBuf_cont hstep]
              rfl
            · have hclen : 0 < c.length := List.length_pos.mpr hcn
              have hsplice : min (m.fileSize - s.receivedBytes) (s.dataBuf ++ c).length
                  = s.dataBuf.length
                    + min (m.fileSize - (s.receivedBytes + s.dataBuf.length)) c.length := by
                simp only [List.length_append]
                omega
              have hk2 : ¬ min (m.fileSize - s.receivedBytes) (s.dataBuf ++ c).length = 0 := by
                simp only [List.length_append]
                omega
              rw [if_neg hk2, hsplice] at happ
              rw [take_append_add, drop_append_add] at happ
              have hstep2 : stepBuf (appB { s with
                  receivingBuffer := s.receivingBuffer ++ s.dataBuf,
                  receivedBytes := s.receivedBytes + s.dataBuf.length,
                  dataBuf := [] } c) = .cont { s with
                    receivingBuffer := (s.receivingBuffer ++ s.dataBuf)
                      ++ c.take (min (m.fileSize - (s.receivedBytes + s.dataBuf.length)) c.length),
                    receivedBytes := (s.receivedBytes + s.dataBuf.length)
                      + min (m.fileSize - (s.receivedBytes + s.dataBuf.length)) c.length,
                    dataBuf := c.drop
                      (min (m.fileSize - (s.receivedBytes + s.dataBuf.length)) c.length) } none := by
                rw [stepBuf_of_payload (s := appB { s with
                    receivingBuffer := s.receivingBuffer ++ s.dataBuf,
                    receivedBytes := s.receivedBytes + s.dataBuf.length,
                    dataBuf := [] } c) (m := m) hrecv hmeta]
                simp only [appB_isReceiving, appB_meta, appB_receivedBytes,
                  appB_receivingBuffer, appB_dataBuf]
                have hne : ¬ s.receivedBytes + s.dataBuf.length = m.fileSize := by omega
                rw [if_neg hne]
                have hk3 : ¬ min (m.fileSize - (s.receivedBytes + s.dataBuf.length))
                    ([] ++ c : List Nat).length = 0 := by
                  simp only [List.nil_append]
                  omega
                rw [if_neg hk3]
                simp
              rw [runBuf_cont happ, runBuf_cont hstep2]
              have heq : { s with
                  receivingBuffer := s.receivingBuffer
                    ++ (s.dataBuf
                      ++ c.take (min (m.fileSize - (s.receivedBytes + s.dataBuf.length)) c.length)),
                  receivedBytes := s.receivedBytes
                    + (s.dataBuf.length
                      + min (m.fileSize - (s.receivedBytes + s.dataBuf.length)) c.length),
                  dataBuf := c.drop
                    (min (m.fileSize - (s.receivedBytes + s.dataBuf.length)) c.length) } = { s with
                  receivingBuffer := (s.receivingBuffer ++ s.dataBuf)
                    ++ c.take (min (m.fileSize - (s.receivedBytes + s.dataBuf.length)) c.length),
                  receivedBytes := (s.receivedBytes + s.dataBuf.length)
                    + min (m.fileSize - (s.receivedBytes + s.dataBuf.length)) c.length,
                  dataBuf := c.drop
                    (min (m.fileSize - (s.receivedBytes + s.dataBuf.length)) c.length) } := by
                simp [List.append_assoc, Nat.add_assoc]
              rw [heq]
  case neg =>
    have hctrl : s.isReceiving = false ∨ s.currentFileMetadata = none := by
      by_cases hr : s.isReceiving = true
      · right
        by_contra hm
        exact hpay ⟨hr, hm⟩
      · left
        exact Bool.eq_false_iff.mpr hr
    have happ := stepBuf_of_ctrl (s := appB s c) hctrl
    simp only [appB_isReceiving, appB_meta, appB_receivedBytes,
      appB_receivingBuffer, appB_dataBuf] at happ
    rw [stepBuf_of_ctrl hctrl]
    cases hfd : findDelim s.dataBuf with
    | none => left; rfl
    | some i =>
      have hbd := findDelim_bound hfd
      have hfd' : findDelim (s.dataBuf ++ c) = some i := findDelim_append_of_some c hfd
      have htk : (s.dataBuf ++ c).take i = s.dataBuf.take i :=
        take_append_le _ _ _ (by omega)
      have hdr : (s.dataBuf ++ c).drop (i + 4) = s.dataBuf.drop (i + 4) ++ c :=
        drop_append_le _ _ _ (by omega)
      simp only [hfd'] at happ
      rw [htk, hdr] at happ
      cases hdec : decodeCtrl (s.dataBuf.take i) with
      | some ctrl =>
        cases ctrl with
        | metadata m2 =>
          right; right
          refine ⟨⟨true, some m2, 0, [], s.dataBuf.drop (i + 4)⟩, none, ?_, Or.inl ?_⟩
          · simp only [hdec]
          · simp only [hdec] at happ
            rw [happ]
            rfl
        | fileSaved =>
          right; right
          refine ⟨{ s with dataBuf := s.dataBuf.drop (i + 4) }, some .ackSaved, ?_, Or.inl ?_⟩
          · simp only [hdec]
          · simp only [hdec] at happ
            rw [happ]
            rfl
        | fileEnd =>
          right; right
          refine ⟨{ s with dataBuf := s.dataBuf.drop (i + 4) }, none, ?_, Or.inl ?_⟩
          · simp only [hdec]
          · simp only [hdec] at happ
            rw [happ]
            rfl
      | none =>
        right; left
        refine ⟨{ s with dataBuf := s.dataBuf.drop (i + 4) }, ?_, ?_⟩
        · simp only [hdec]
        · simp only [hdec] at happ
          rw [happ]
          rfl

/-- A finished clean drain is quiescent: running again from its final
state does nothing until more data arrives. -/
theorem runBuf_clean_fixed_aux : ∀ n, ∀ s : RecvSt, s.dataBuf.length = n →
    (runBuf s).clean = true →
    stepBuf (runBuf s).st = .stop (runBuf s).st true := by
  intro n
  induction n using Nat.strong_induction_on with
  | _ n ih =>
    intro s hlen h
    cases hs : stepBuf s with
    | cont s' e =>
      rw [runBuf_cont hs] at h ⊢
      exact ih s'.dataBuf.length (hlen ▸ stepBuf_cont_length hs) s' rfl h
    | stop s₁ cl =>
      rw [runBuf_stop hs] at h ⊢
      have hcl : cl = true := h
      subst hcl
      have hse := stepBuf_stop_true hs
      subst hse
      exact hs

/-- Incremental drains compose: if draining the extended buffer never
hits a protocol error, then draining `s`'s buffer first and then the
extension gives the same final state and the same events, in order. -/
theorem runBuf_append : ∀ n, ∀ s : RecvSt, s.dataBuf.length = n → ∀ c : List Nat,
    (runBuf (appB s c)).clean = true →
    (runBuf s).clean = true ∧
    runBuf (appB s c)
      = ⟨(runBuf (appB (runBuf s).st c)).st,
         (runBuf s).evs ++ (runBuf (appB (runBuf s).st c)).evs,
         (runBuf (appB (runBuf s).st c)).clean⟩ := by
  intro n
  induction n using Nat.strong_induction_on with
  | _ n ih =>
    intro s hlen c h
    rcases stepBuf_trichotomy s c with htri | ⟨s₁, hstop, happ⟩ | ⟨s', e, hcont, halt⟩
    · rw [runBuf_stop htri]
      refine ⟨rfl, ?_⟩
      show runBuf (appB s c)
        = ⟨(runBuf (appB s c)).st, [] ++ (runBuf (appB s c)).evs, (runBuf (appB s c)).clean⟩
      rw [List.nil_append]
    · rw [runBuf_stop happ] at h
      exact absurd (show (false : Bool) = true from h) (by simp)
    · rcases halt with haligned | ⟨hen, hstuck, heq⟩
      · rw [runBuf_cont haligned] at h
        have hh : (runBuf (appB s' c)).clean = true := h
        obtain ⟨hclean', hcomp⟩ :=
          ih s'.dataBuf.length (hlen ▸ stepBuf_cont_length hcont) s' rfl c hh
        constructor
        · rw [runBuf_cont hcont]
          exact hclean'
        · rw [runBuf_cont haligned, hcomp, runBuf_cont hcont]
          simp [List.append_assoc]
      · subst hen
        rw [heq]
        constructor
        · rw [runBuf_cont hcont, runBuf_stop hstuck]
        · rw [runBuf_cont hcont, runBuf_stop hstuck]
          simp

/-- Chunked ingestion from a quiescent state equals one big drain of
the concatenated bytes, as long as the big drain parses cleanly. -/
theorem ingestList_eq_join : ∀ cs : List (List Nat), ∀ s : RecvSt,
    stepBuf s = .stop s true →
    (runBuf (appB s cs.join)).clean = true →
    ingestList s cs = runBuf (appB s cs.join) := by
  intro cs
  induction cs with
  | nil =>
    intro s hq _
    show (⟨s, [], true⟩ : RunRes) = runBuf (appB s [].join)
    rw [show ([] : List (List Nat)).join = [] from rfl, appB_nil, runBuf_stop hq]
  | cons c cs ih =>
    intro s hq h
    have happ : appB s ((c :: cs).join) = appB (appB s c) cs.join := by
      simp [appB, List.append_assoc]
    rw [happ] at h ⊢
    obtain ⟨hclean1, hcomp⟩ :=
      runBuf_append (appB s c).dataBuf.length (appB s c) rfl cs.join h
    have hq2 : stepBuf (runBuf (appB s c)).st = .stop (runBuf (appB s c)).st true :=
      runBuf_clean_fixed_aux _ _ rfl hclean1
    have hinner : (runBuf (appB (runBuf (appB s c)).st cs.join)).clean = true := by
      rw [hcomp] at h
      exact h
    have hrec := ih (runBuf (appB s c)).st hq2 hinner
    show (⟨(ingestList (ingest s c).st cs).st,
        (ingest s c).evs ++ (ingestList (ingest s c).st cs).evs,
        (ingest s c).clean && (ingestList (ingest s c).st cs).clean⟩ : RunRes)
      = runBuf (appB (appB s c) cs.join)
    simp only [ingest]
    rw [hrec, hcomp, hclean1]
    simp

theorem findDelim_body' (body rest : List Nat) (h : ∀ b ∈ body, b ≠ 0) :
    findDelim (body ++ (delim ++ rest)) = some body.length := by
  rw [← List.append_assoc]
  exact findDelim_body body rest h

theorem strBytes_metaHead_noNul : ∀ b ∈ strBytes metaHead, b ≠ 0 := by decide

theorem strBytes_sizeLit_noNul : ∀ b ∈ strBytes sizeLit, b ≠ 0 := by decide

theorem strBytes_curLit_noNul : ∀ b ∈ strBytes curLit, b ≠ 0 := by decide

theorem strBytes_totLit_noNul : ∀ b ∈ strBytes totLit, b ≠ 0 := by decide

theorem strBytes_tailLit_noNul : ∀ b ∈ strBytes tailLit, b ≠ 0 := by decide

theorem fileEndBytes_noNul : ∀ b ∈ fileEndBytes, b ≠ 0 := by decide

theorem fileSavedBytes_noNul : ∀ b ∈ fileSavedBytes, b ≠ 0 := by decide

theorem natDecBytes_noNul (n : Nat) : ∀ b ∈ natDecBytes n, b ≠ 0 := by
  intro b hb
  have := natDecBytes_digits n b hb
  omega

/-- A metadata frame body never contains a null byte, so the delimiter
cannot occur inside it. -/
theorem metaFrame_noNul (m : TransferMetadata) (h : PlainName m.fileName) :
    ∀ b ∈ metaFrameBytes m, b ≠ 0 := by
  intro b hb
  unfold metaFrameBytes at hb
  simp only [List.mem_append, List.mem_cons] at hb
  rcases hb with hb | hb | hb | hb | hb | hb | hb | hb | hb
  · exact strBytes_metaHead_noNul b hb
  · have := (h b hb).1
    omega
  · omega
  · exact strBytes_sizeLit_noNul b hb
  · exact natDecBytes_noNul _ b hb
  · exact strBytes_curLit_noNul b hb
  · exact natDecBytes_noNul _ b hb
  · exact strBytes_totLit_noNul b hb
  rcases hb with hb | hb
  · exact natDecBytes_noNul _ b hb
  · exact strBytes_tailLit_noNul b hb

/-- Wire bytes `sendFile` emits for one file: the metadata frame and
its delimiter, the raw payload (byte-exact, no framing), the file-end
frame and its delimiter. -/
def filesWire : List (TransferMetadata × List Nat) → List Nat
  | [] => []
  | (m, p) :: fs =>
    metaFrameBytes m ++ (delim ++ (p ++ (fileEndBytes ++ (delim ++ filesWire fs))))

/-- Sender-side well-formedness: declared sizes match payloads and file
names serialise verbatim. -/
def WellFormed (fs : List (TransferMetadata × List Nat)) : Prop :=
  ∀ f ∈ fs, PlainName f.1.fileName ∧ f.2.length = f.1.fileSize

instance (fs : List (TransferMetadata × List Nat)) : Decidable (WellFormed fs) := by
  unfold WellFormed
  infer_instance

/-- Draining the whole canonical stream at once: each file's payload is
consumed byte-exactly and produces one `saved` event, leaving an idle
state. -/
theorem runBuf_filesWire : ∀ fs : List (TransferMetadata × List Nat), WellFormed fs →
    runBuf ⟨false, none, 0, [], filesWire fs⟩
      = ⟨initRecv, fs.map (fun f => REv.saved f.1 f.2), true⟩ := by
  intro fs
  induction fs with
  | nil =>
    intro _
    rw [runBuf_stop (show stepBuf ⟨false, none, 0, [], filesWire []⟩
      = .stop ⟨false, none, 0, [], filesWire []⟩ true from rfl)]
    rfl
  | cons f fs ih =>
    intro hwf
    obtain ⟨m, p⟩ := f
    have hpn : PlainName m.fileName := (hwf (m, p) (by simp)).1
    have hlen : p.length = m.fileSize := (hwf (m, p) (by simp)).2
    have hwf' : WellFormed fs := fun g hg => hwf g (by simp [hg])
    -- step 1: parse the metadata frame
    have hfd1 : findDelim (filesWire ((m, p) :: fs)) = some (metaFrameBytes m).length := by
      rw [show filesWire ((m, p) :: fs)
        = metaFrameBytes m ++ (delim ++ (p ++ (fileEndBytes ++ (delim ++ filesWire fs))))
        from rfl]
      exact findDelim_body' _ _ (metaFrame_noNul m hpn)
    have htk1 : (filesWire ((m, p) :: fs)).take (metaFrameBytes m).length
        = metaFrameBytes m := by
      rw [show filesWire ((m, p) :: fs)
        = metaFrameBytes m ++ (delim ++ (p ++ (fileEndBytes ++ (delim ++ filesWire fs))))
        from rfl]
      exact List.take_left _ _
    have hdr1 : (filesWire ((m, p) :: fs)).drop ((metaFrameBytes m).length + 4)
        = p ++ (fileEndBytes ++ (delim ++ filesWire fs)) := by
      rw [show filesWire ((m, p) :: fs)
        = metaFrameBytes m ++ (delim ++ (p ++ (fileEndBytes ++ (delim ++ filesWire fs))))
        from rfl]
      rw [drop_append_add]
      rfl
    have hstep1 : stepBuf ⟨false, none, 0, [], filesWire ((m, p) :: fs)⟩
        = .cont ⟨true, some m, 0, [], p ++ (fileEndBytes ++ (delim ++ filesWire fs))⟩ none := by
      rw [stepBuf_of_ctrl (Or.inl rfl)]
      simp only [hfd1, htk1, hdr1, decode_metaFrame m hpn]
    -- step 3 (shared): recognise the file-end frame when the payload is done
    have hfd3 : findDelim (fileEndBytes ++ (delim ++ filesWire fs))
        = some fileEndBytes.length :=
      findDelim_body' _ _ fileEndBytes_noNul
    have htk3 : (fileEndBytes ++ (delim ++ filesWire fs)).take fileEndBytes.length
        = fileEndBytes := List.take_left _ _
    have hdr3 : (fileEndBytes ++ (delim ++ filesWire fs)).drop (fileEndBytes.length + 4)
        = filesWire fs := by
      rw [drop_append_add]
      rfl
    by_cases hz : m.fileSize = 0
    · -- zero-byte file: no payload bytes between the two frames
      have hp : p = [] := List.length_eq_zero.mp (by omega)
      subst hp
      have hstepZ : stepBuf ⟨true, some m, 0, [],
          [] ++ (fileEndBytes ++ (delim ++ filesWire fs))⟩
          = .cont ⟨false, none, 0, [], filesWire fs⟩ (some (.saved m [])) := by
        rw [stepBuf_of_payload (s := ⟨true, some m, 0, [],
          [] ++ (fileEndBytes ++ (delim ++ filesWire fs))⟩) rfl rfl]
        rw [if_pos hz.symm]
        simp only [List.nil_append, hfd3, htk3, hdr3, decode_fileEnd]
      rw [runBuf_cont hstep1, runBuf_cont hstepZ, ih hwf']
      simp
    · -- non-empty payload: one absorbing read of exactly fileSize bytes
      have hlenbuf : (p ++ (fileEndBytes ++ (delim ++ filesWire fs))).length
          = p.length + (fileEndBytes.length + (4 + (filesWire fs).length)) := by
        simp [List.length_append, delim]
        omega
      have hmin2 : min (m.fileSize - 0) (p ++ (fileEndBytes ++ (delim ++ filesWire fs))).length
          = m.fileSize := by
        rw [hlenbuf]
        have h19 : fileEndBytes.length = 19 := by decide
        omega
      have hstep2 : stepBuf ⟨true, some m, 0, [],
          p ++ (fileEndBytes ++ (delim ++ filesWire fs))⟩
          = .cont ⟨true, some m, m.fileSize, p, fileEndBytes ++ (delim ++ filesWire fs)⟩ none := by
        rw [stepBuf_of_payload (s := ⟨true, some m, 0, [],
          p ++ (fileEndBytes ++ (delim ++ filesWire fs))⟩) rfl rfl]
        rw [if_neg (show ¬(0 = m.fileSize) from fun hc => hz hc.symm)]
        rw [if_neg (show ¬(min (m.fileSize - 0)
          (p ++ (fileEndBytes ++ (delim ++ filesWire fs))).length = 0) from by
            rw [hmin2]; exact hz)]
        rw [hmin2]
        rw [show (p ++ (fileEndBytes ++ (delim ++ filesWire fs))).take m.fileSize
          = p from by rw [← hlen]; exact List.take_left _ _]
        rw [show (p ++ (fileEndBytes ++ (delim ++ filesWire fs))).drop m.fileSize
          = fileEndBytes ++ (delim ++ filesWire fs) from by
            rw [← hlen]; exact List.drop_left _ _]
        simp
      have hstep3 : stepBuf ⟨true, some m, m.fileSize, p,
          fileEndBytes ++ (delim ++ filesWire fs)⟩
          = .cont ⟨false, none, 0, [], filesWire fs⟩ (some (.saved m p)) := by
        rw [stepBuf_of_payload (s := ⟨true, some m, m.fileSize, p,
          fileEndBytes ++ (delim ++ filesWire fs)⟩) rfl rfl]
        rw [if_pos rfl]
        simp only [hfd3, htk3, hdr3, decode_fileEnd]
      rw [runBuf_cont hstep1, runBuf_cont hstep2, runBuf_cont hstep3, ih hwf']
      simp

/-- Core helper: ingesting ANY chunking of the canonical wire stream of
a list of files, starting idle, yields exactly one `saved` event per
file, in order, each carrying the byte-exact payload, and returns to
the idle state with an empty buffer. -/
theorem ingest_filesWire (fs : List (TransferMetadata × List Nat))
    (hwf : WellFormed fs) (cs : List (List Nat)) (hcs : cs.join = filesWire fs) :
    ingestList initRecv cs
      = ⟨initRecv, fs.map (fun f => REv.saved f.1 f.2), true⟩ := by
  have hq : stepBuf initRecv = .stop initRecv true := rfl
  have hbatch := runBuf_filesWire fs hwf
  have happ : appB initRecv cs.join = ⟨false, none, 0, [], filesWire fs⟩ := by
    simp [appB, initRecv, hcs]
  have hclean : (runBuf (appB initRecv cs.join)).clean = true := by
    rw [happ, hbatch]
  rw [ingestList_eq_join cs initRecv hq hclean, happ, hbatch]

/-! ## Collision-free naming (`fileHelper.ts`)

`getUniqueFilePath` works on one fixed directory, so the model carries
the directory as the list of byte-string names that exist in it
(`fs.existsSync(path.join(dir, name))  ⟺  name ∈ dir`), and
`getUniqueFileName fileName dir` is `getUniqueFilePath` followed by
`path.basename`, which on a separator-free name is the name itself. -/

/-- `path.extname` model: index one past the last `.`, when that dot is
not the leading character (Node treats `.hidden` as extension-less).
46 is `.`. -/
def lastDot : List Nat → Option Nat
  | [] => none
  | c :: rest =>
    match lastDot rest with
    | some i => some (i + 1)
    | none => if c = 46 then some 0 else none

/-- Split into (`path.basename(p, ext)`, `path.extname(p)`). -/
def extSplit (name : List Nat) : List Nat × List Nat :=
  match lastDot name with
  | some i => if 1 ≤ i then (name.take i, name.drop i) else (name, [])
  | none => (name, [])

/-- `` `${baseName} (${counter})${ext}` `` — 32/40/41 are space, `(`, `)`. -/
def mkName (base : List Nat) (k : Nat) (ext : List Nat) : List Nat :=
  base ++ (32 :: 40 :: (natDecBytes k ++ (41 :: ext)))

/-- The `while (fs.existsSync(uniquePath))` loop, with enough fuel to
cover every name the directory could hold. -/
def uniqueLoop (dir : List (List Nat)) (base ext : List Nat) : Nat → Nat → List Nat
  | counter, 0 => mkName base counter ext
  | counter, fuel + 1 =>
    if mkName base counter ext ∈ dir then uniqueLoop dir base ext (counter + 1) fuel
    else mkName base counter ext

/-- `getUniqueFilePath` from `fileHelper.ts`, on the names of one
directory. -/
def getUniqueFilePath (dir : List (List Nat)) (name : List Nat) : List Nat :=
  if name ∈ dir then
    uniqueLoop dir (extSplit name).1 (extSplit name).2 1 (dir.length + 1)
  else name

theorem mkName_inj (base ext : List Nat) {j1 j2 : Nat}
    (h : mkName base j1 ext = mkName base j2 ext) : j1 = j2 := by
  unfold mkName at h
  have h1 := List.append_cancel_left h
  injection h1 with _ h2
  injection h2 with _ h3
  have hp1 := parseDec_natDecBytes j1 (41 :: ext) (by intro b hb; simp at hb; omega)
  have hp2 := parseDec_natDecBytes j2 (41 :: ext) (by intro b hb; simp at hb; omega)
  rw [h3, hp2] at hp1
  exact (Prod.mk.injEq _ _ _ _ ▸ hp1).1.symm

/-- Pigeonhole: among `dir.length + 1` consecutive candidate names at
least one is not taken. -/
theorem exists_free (dir : List (List Nat)) (base ext : List Nat) (c : Nat) :
    ∃ j, c ≤ j ∧ j < c + (dir.length + 1) ∧ mkName base j ext ∉ dir := by
  by_contra hall
  push_neg at hall
  have hmaps : ∀ j ∈ Finset.Icc c (c + dir.length),
      mkName base j ext ∈ dir.toFinset := by
    intro j hj
    simp only [Finset.mem_Icc] at hj
    rw [List.mem_toFinset]
    exact hall j hj.1 (by omega)
  have hinj : Set.InjOn (fun j => mkName base j ext) (Finset.Icc c (c + dir.length)) :=
    fun j1 _ j2 _ h => mkName_inj base ext h
  have hcard := Finset.card_le_card_of_injOn _ hmaps hinj
  rw [Nat.card_Icc] at hcard
  have hfin := dir.toFinset_card_le
  omega

/-- The loop returns the candidate for the least free counter within
its fuel window. -/
theorem uniqueLoop_spec (dir : List (List Nat)) (base ext : List Nat) :
    ∀ fuel c, (∃ j, c ≤ j ∧ j < c + fuel ∧ mkName base j ext ∉ dir) →
    ∃ k, uniqueLoop dir base ext c fuel = mkName base k ext
      ∧ c ≤ k ∧ mkName base k ext ∉ dir
      ∧ ∀ j, c ≤ j → j < k → mkName base j ext ∈ dir := by
  intro fuel
  induction fuel with
  | zero =>
    intro c ⟨j, hj1, hj2, _⟩
    omega
  | succ fuel ih =>
    intro c ⟨j, hj1, hj2, hj3⟩
    by_cases hc : mkName base c ext ∈ dir
    · have hjc : c ≠ j := fun he => hj3 (he ▸ hc)
      obtain ⟨k, hk1, hk2, hk3, hk4⟩ := ih (c + 1) ⟨j, by omega, by omega, hj3⟩
      refine ⟨k, ?_, by omega, hk3, ?_⟩
      · show uniqueLoop dir base ext c (fuel + 1) = _
        unfold uniqueLoop
        rw [if_pos hc]
        exact hk1
      · intro i hi1 hi2
        rcases Nat.eq_or_lt_of_le hi1 with he | hl
        · exact he ▸ hc
        · exact hk4 i hl hi2
    · refine ⟨c, ?_, le_refl c, hc, fun i hi1 hi2 => absurd (by omega : i < i) (by omega)⟩
      show uniqueLoop dir base ext c (fuel + 1) = _
      unfold uniqueLoop
      rw [if_neg hc]

/-- Full characterisation of `getUniqueFilePath`: the requested name
when free; otherwise `base (k)ext` for the least `k ≥ 1` whose name is
free.  In particular the returned name never collides. -/
theorem getUniqueFilePath_spec (dir : List (List Nat)) (name : List Nat) :
    (name ∉ dir → getUniqueFilePath dir name = name)
    ∧ (name ∈ dir → ∃ k, 1 ≤ k
        ∧ getUniqueFilePath dir name = mkName (extSplit name).1 k (extSplit name).2
        ∧ mkName (extSplit name).1 k (extSplit name).2 ∉ dir
        ∧ ∀ j, 1 ≤ j → j < k → mkName (extSplit name).1 j (extSplit name).2 ∈ dir) := by
  constructor
  · intro h
    unfold getUniqueFilePath
    rw [if_neg h]
  · intro h
    unfold getUniqueFilePath
    rw [if_pos h]
    obtain ⟨k, hk1, hk2, hk3, hk4⟩ := uniqueLoop_spec dir _ _ (dir.length + 1) 1
      (by
        obtain ⟨j, hj1, hj2, hj3⟩ := exists_free dir (extSplit name).1 (extSplit name).2 1
        exact ⟨j, hj1, hj2, hj3⟩)
    exact ⟨k, hk2, hk1, hk3, hk4⟩

theorem getUniqueFilePath_not_mem (dir : List (List Nat)) (name : List Nat) :
    getUniqueFilePath dir name ∉ dir := by
  by_cases h : name ∈ dir
  · obtain ⟨k, _, he, hfree, _⟩ := (getUniqueFilePath_spec dir name).2 h
    rw [he]
    exact hfree
  · rw [(getUniqueFilePath_spec dir name).1 h]
    exact h

/-! ## Sender lifecycle and mDNS advertising (`startSender` /
`startAdvertising` / `stopAdvertising` / socket handlers / `stopSender`)

One sender session, observed from the point the listener is bound.
`startAdv` carries the guard of `startAdvertising` (already advertising,
no port, or intentionally stopping → no-op); `stopAdv` is
`stopAdvertising`.  Events are the socket/lifecycle callbacks that touch
these fields in the source; `authBad` destroys the rejected socket and
changes none of them. -/

structure SenderLife where
  listening : Bool
  advertising : Bool
  authed : Bool
  stopping : Bool
  port : Nat
deriving Repr, DecidableEq

def startAdv (s : SenderLife) : SenderLife :=
  if s.advertising || s.port == 0 || s.stopping then s
  else { s with advertising := true }

def stopAdv (s : SenderLife) : SenderLife := { s with advertising := false }

/-- State right after `server.listen`'s callback ran: listening on a
port, `isStopping` freshly reset, no client, advertising published. -/
def afterListen (port : Nat) : SenderLife := startAdv ⟨true, false, false, false, port⟩

inductive LifeEv
  | authOk
  | authBad
  | sockError
  | sockClose
  | stopSender
deriving Repr, DecidableEq

def stepLife (s : SenderLife) : LifeEv → SenderLife
  | .authOk => stopAdv { s with authed := true }
  | .authBad => s
  | .sockError => if s.authed && !s.stopping then stopAdv s else s
  | .sockClose =>
    { (if s.authed && !s.stopping then stopAdv s else s) with authed := false }
  | .stopSender => { stopAdv s with stopping := true, listening := false, authed := false }

/-- States of one sender session reachable after the listener bound. -/
def reachLife (port : Nat) (evs : List LifeEv) : SenderLife :=
  evs.foldl stepLife (afterListen port)

def LifeInv (s : SenderLife) : Prop :=
  s.advertising = true → s.listening = true ∧ s.authed = false ∧ s.stopping = false

theorem stepLife_inv (s : SenderLife) (h : LifeInv s) (e : LifeEv) :
    LifeInv (stepLife s e) := by
  cases e with
  | authOk =>
    intro hadv
    simp [stepLife, stopAdv] at hadv
  | authBad => exact h
  | sockError =>
    simp only [stepLife]
    split
    · intro hadv
      simp [stopAdv] at hadv
    · exact h
  | sockClose =>
    simp only [stepLife]
    split
    · intro hadv
      simp [stopAdv] at hadv
    · intro hadv
      have hs := h hadv
      exact ⟨hs.1, rfl, hs.2.2⟩
  | stopSender =>
    intro hadv
    simp [stepLife, stopAdv] at hadv

theorem foldl_stepLife_inv : ∀ evs : List LifeEv, ∀ s : SenderLife, LifeInv s →
    LifeInv (evs.foldl stepLife s) := by
  intro evs
  induction evs with
  | nil => exact fun s h => h
  | cons e evs ih => exact fun s h => ih _ (stepLife_inv s h e)

/-- Every state of a sender session reachable after the listener bound
satisfies: the advertisement is published only while the sender is
listening, unauthenticated and not stopping. -/
theorem reachLife_inv (port : Nat) (evs : List LifeEv) : LifeInv (reachLife port evs) := by
  apply foldl_stepLife_inv
  unfold afterListen startAdv LifeInv
  split
  · intro h
    simp at h
  · intro _
    exact ⟨rfl, rfl, rfl⟩

/-! ## The newline-framed authentication channel

Before a session is authenticated both sides exchange single-line JSON
records terminated by `'\n'`: `auth{code}`, `auth-success{}` and
`error{message}`.  Codes travel as their wire bytes. -/

def authHeadBytes : List Nat := strBytes "\x7b\"type\":\"auth\",\"code\":\""

def authSuccessBytes : List Nat := strBytes "\x7b\"type\":\"auth-success\"\x7d"

def errorHeadBytes : List Nat := strBytes "\x7b\"type\":\"error\",\"message\":\""

/-- `JSON.stringify({type:'auth', code})`. -/
def authLineBytes (code : List Nat) : List Nat :=
  authHeadBytes ++ (code ++ (34 :: [125]))

/-- `JSON.stringify({type:'error', message})`. -/
def errorLineBytes (msg : String) : List Nat :=
  errorHeadBytes ++ (strBytes msg ++ (34 :: [125]))

inductive LineMsg
  | auth (code : List Nat)
  | authSuccess
  | errorMsg
deriving Repr, DecidableEq

/-- `JSON.parse` + `json.type` dispatch for one line of the
authentication channel. -/
def decodeLine (line : List Nat) : Option LineMsg :=
  if line = authSuccessBytes then some .authSuccess
  else match dropLead authHeadBytes line with
    | some r =>
      match takeName r with
      | some (code, rest) => if rest = [125] then some (.auth code) else none
      | none => none
    | none =>
      match dropLead errorHeadBytes line with
      | some r =>
        match takeName r with
        | some (_, rest) => if rest = [125] then some .errorMsg else none
        | none => none
      | none => none

theorem dropLead_mismatch (common : List Nat) {a b : Nat} (ra rb : List Nat)
    (h : a ≠ b) : dropLead (common ++ a :: ra) (common ++ b :: rb) = none := by
  induction common with
  | nil =>
    show dropLead (a :: ra) (b :: rb) = none
    unfold dropLead
    rw [if_neg (fun hc => h hc.symm)]
  | cons c cs ih =>
    show dropLead (c :: (cs ++ a :: ra)) (c :: (cs ++ b :: rb)) = none
    unfold dropLead
    rw [if_pos rfl]
    exact ih

theorem decode_authLine (code : List Nat) (hq : (34 : Nat) ∉ code) :
    decodeLine (authLineBytes code) = some (.auth code) := by
  have hne : authLineBytes code ≠ authSuccessBytes := by
    intro hc
    have h1 : (authLineBytes code).length = 23 + (code.length + 2) := by
      simp [authLineBytes, List.length_append]
      decide
    rw [hc] at h1
    have : authSuccessBytes.length = 23 := by decide
    omega
  unfold decodeLine authLineBytes
  rw [if_neg (by exact hne)]
  simp only [dropLead_append, takeName_append code [125] hq]
  simp

theorem decode_errorLine (msg : String) (hp : PlainName msg) :
    decodeLine (errorLineBytes msg) = some .errorMsg := by
  have hne : errorLineBytes msg ≠ authSuccessBytes := by
    intro hc
    have h1 : (errorLineBytes msg).length = 27 + ((strBytes msg).length + 2) := by
      simp [errorLineBytes, List.length_append]
      decide
    rw [hc] at h1
    have : authSuccessBytes.length = 23 := by decide
    omega
  have hmm : dropLead authHeadBytes (errorLineBytes msg) = none := by
    have he1 : authHeadBytes
        = strBytes "\x7b\"type\":\"" ++ (97 :: strBytes "uth\",\"code\":\"") := by decide
    have he2 : errorLineBytes msg
        = strBytes "\x7b\"type\":\"" ++ (101 :: (strBytes "rror\",\"message\":\""
          ++ (strBytes msg ++ (34 :: [125])))) := rfl
    rw [he1, he2]
    exact dropLead_mismatch _ _ _ (by omega)
  have hq : (34 : Nat) ∉ strBytes msg := by
    intro hc
    exact (hp 34 hc).2.2.1 rfl
  unfold decodeLine
  rw [if_neg (by exact hne), hmm]
  simp only [errorLineBytes, dropLead_append, takeName_append _ [125] hq]
  simp

theorem decode_authSuccess : decodeLine authSuccessBytes = some .authSuccess := by
  simp [decodeLine]

/-! ## Splitting a chunk into newline-separated lines
(`data.toString().split('\n')`). -/

def splitNl : List Nat → List (List Nat)
  | [] => [[]]
  | b :: rest =>
    match splitNl rest with
    | [] => [[b]]
    | l :: ls => if b = 10 then [] :: l :: ls else (b :: l) :: ls

theorem splitNl_append_nl (l : List Nat) (h : (10 : Nat) ∉ l) :
    splitNl (l ++ [10]) = [l, []] := by
  induction l with
  | nil => rfl
  | cons b bs ih =>
    have hb : b ≠ 10 := fun hc => h (by simp [hc])
    have hrec := ih (fun hc => h (by simp [hc]))
    show splitNl (b :: (bs ++ [10])) = _
    unfold splitNl
    simp only [hrec]
    rw [if_neg hb]

/-! ## Sender-side authentication handler (`authHandler` in
`startSender`)

Verdict of one `data` event while unauthenticated.  `wrote` are the
newline-framed records written back to the socket, `destroyed` is
`socket.destroy()`, `promoted` means the socket became `this.client`
(with `stopAdvertising()` and the transfer data handler installed).
Only the first `auth` record decides.  Lines that are not valid JSON,
or valid JSON of another type, are ignored. -/

structure AuthOutcome where
  wrote : List (List Nat)
  destroyed : Bool
  promoted : Bool
deriving Repr, DecidableEq

def invalidCodeMsg : String := "Invalid connection code"

def authHandler (sessionCode : List Nat) : List (List Nat) → AuthOutcome
  | [] => ⟨[], false, false⟩
  | line :: rest =>
    if line = [] then authHandler sessionCode rest
    else match decodeLine line with
      | some (.auth code) =>
        if code = sessionCode then ⟨[authSuccessBytes ++ [10]], false, true⟩
        else ⟨[errorLineBytes invalidCodeMsg ++ [10]], true, false⟩
      | _ => authHandler sessionCode rest

/-- One unauthenticated `data` event, from raw chunk bytes. -/
def authDecision (sessionCode : List Nat) (chunk : List Nat) : AuthOutcome :=
  authHandler sessionCode (splitNl chunk)

/-! ## Receiver-side `connectToSender` data handler

Every chunk — also raw file payload mid-transfer — is first split into
lines and JSON-sniffed; only when no line matches `error` (or
`auth-success` while unresolved) does the chunk reach the transfer
buffer (`dataBuffer ++= data; processDataBuffer()`). -/

inductive ConnAct
  | destroyReject
  | destroyOnly
  | resolveOk
  | buffer
deriving Repr, DecidableEq

def connLines (isResolved : Bool) : List (List Nat) → ConnAct
  | [] => .buffer
  | line :: rest =>
    if line.all (fun b => b == 32 || b == 9 || b == 13) then connLines isResolved rest
    else match decodeLine line with
      | some .errorMsg => if isResolved then .destroyOnly else .destroyReject
      | some .authSuccess => if isResolved then connLines isResolved rest else .resolveOk
      | some (.auth _) => connLines isResolved rest
      | none => connLines isResolved rest

/-- Action the `connectToSender` `data` handler takes on one chunk:
`destroyReject` = destroy the socket and reject the connect promise
with `Error('Invalid connection code')`; `destroyOnly` = destroy the
socket (promise already settled); `resolveOk` = resolve the connect
promise and return without buffering; `buffer` = append the chunk to
the transfer buffer and run `processDataBuffer`. -/
def connDataStep (isResolved : Bool) (chunk : List Nat) : ConnAct :=
  connLines isResolved (splitNl chunk)

/-! ## Session codes (`generateConnectionCode`) and input
normalisation -/

/-- One lowercase hex digit as a byte (`Buffer.toString('hex')`). -/
def hexDig (d : Nat) : Nat := if d < 10 then 48 + d else 87 + d

def byteHex (b : Nat) : List Nat := [hexDig (b / 16), hexDig (b % 16)]

/-- `String.prototype.toUpperCase` on one ASCII byte. -/
def upperByte (b : Nat) : Nat := if 97 ≤ b ∧ b ≤ 122 then b - 32 else b

/-- `crypto.randomBytes(3).toString('hex').toUpperCase()` followed by
`` `${code.slice(0,3)}-${code.slice(3,6)}` `` (45 is `-`). -/
def generateConnectionCode (rb : List Nat) : List Nat :=
  ((rb.map byteHex).join.map upperByte).take 3
    ++ (45 :: (((rb.map byteHex).join.map upperByte).drop 3).take 3)

def isWs (b : Nat) : Bool := b == 32 || b == 9 || b == 10 || b == 13

/-- `input.trim().toUpperCase()` — the receiver UI's normalisation of
the typed code before `connectToSender` sends it. -/
def normCode (input : List Nat) : List Nat :=
  (((input.dropWhile isWs).reverse.dropWhile isWs).reverse).map upperByte

/-! ## Remote-mode windowed chunk sender (`sendFilesToRemote`)

`CHUNK_SIZE = 256 KiB`, `WINDOW_SIZE = 20`.  The flow-control wait runs
only when `i > 0 && i % WINDOW_SIZE === 0`; it polls
`file.acknowledgedChunks < i - WINDOW_SIZE` every 10 ms up to 500
polls, warns on timeout and continues.  `ack t` is the value of
`acknowledgedChunks` (updated concurrently by the `chunk-ack`
listener) as observed at global poll tick `t`; sending a chunk also
advances the clock (the 1 ms inter-chunk delay). -/

inductive RemEv
  | waited (i : Nat) (polls : Nat) (timedOut : Bool)
  | sent (i : Nat)
deriving Repr, DecidableEq

/-- The `while (file.acknowledgedChunks < minRequiredAck && waitCount <
500)` poll loop; returns the number of polls performed. -/
def pollWait (ack : Nat → Nat) (minReq : Nat) : Nat → Nat → Nat
  | _, 0 => 0
  | t, fuel + 1 =>
    if ack t < minReq then pollWait ack minReq (t + 1) fuel + 1 else 0

def remoteWindow : Nat := 20

def remoteSendAux (ack : Nat → Nat) : Nat → Nat → Nat → List RemEv
  | 0, _, _ => []
  | remaining + 1, i, t =>
    if 0 < i ∧ i % remoteWindow = 0 then
      let w := pollWait ack (i - remoteWindow) t 500
      .waited i w (w == 500) :: .sent i :: remoteSendAux ack remaining (i + 1) (t + w + 1)
    else
      .sent i :: remoteSendAux ack remaining (i + 1) (t + 1)

/-- Trace of the chunk loop for one file of `totalChunks` chunks. -/
def remoteSend (ack : Nat → Nat) (totalChunks : Nat) : List RemEv :=
  remoteSendAux ack totalChunks 0 0

/-- The poll loop ends either by the 500-poll timeout or because the
acknowledged count caught up with the requirement. -/
theorem pollWait_spec (ack : Nat → Nat) (minReq : Nat) :
    ∀ fuel t, pollWait ack minReq t fuel = fuel
      ∨ minReq ≤ ack (t + pollWait ack minReq t fuel) := by
  intro fuel
  induction fuel with
  | zero => intro t; left; rfl
  | succ fuel ih =>
    intro t
    have hunf : pollWait ack minReq t (fuel + 1)
        = if ack t < minReq then pollWait ack minReq (t + 1) fuel + 1 else 0 := rfl
    rw [hunf]
    by_cases h : ack t < minReq
    · rw [if_pos h]
      rcases ih (t + 1) with h1 | h1
      · left; omega
      · right
        have he : t + (pollWait ack minReq (t + 1) fuel + 1)
            = t + 1 + pollWait ack minReq (t + 1) fuel := by omega
        rw [he]
        exact h1
    · rw [if_neg h]
      right
      simpa using Nat.le_of_not_lt h

/-- A wait event occurs only at positive multiples of the window. -/
theorem remote_waited_multiple (ack : Nat → Nat) :
    ∀ remaining i t j w b, RemEv.waited j w b ∈ remoteSendAux ack remaining i t →
      0 < j ∧ j % remoteWindow = 0 := by
  intro remaining
  induction remaining with
  | zero => intro i t j w b h; simp [remoteSendAux] at h
  | succ remaining ih =>
    intro i t j w b h
    unfold remoteSendAux at h
    split at h
    · next hc =>
      simp only [List.mem_cons] at h
      rcases h with h | h | h
      · injection h with h1 h2 h3
        exact h1 ▸ hc
      · cases h
      · exact ih _ _ j w b h
    · simp only [List.mem_cons] at h
      rcases h with h | h
      · cases h
      · exact ih _ _ j w b h

/-- Every chunk below `totalChunks` is sent, and a chunk at a positive
multiple of the window is sent only after its wait ran. -/
theorem remote_sent_all (ack : Nat → Nat) :
    ∀ remaining i t j, i ≤ j → j < i + remaining →
      RemEv.sent j ∈ remoteSendAux ack remaining i t
      ∧ (0 < j → j % remoteWindow = 0 →
          ∃ w, RemEv.waited j w (w == 500) ∈ remoteSendAux ack remaining i t) := by
  intro remaining
  induction remaining with
  | zero => intro i t j h1 h2; omega
  | succ remaining ih =>
    intro i t j h1 h2
    unfold remoteSendAux
    by_cases hi : i = j
    · subst hi
      split
      · next hc =>
        refine ⟨by simp, fun _ _ => ⟨pollWait ack (i - remoteWindow) t 500, by simp⟩⟩
      · next hc =>
        refine ⟨by simp, fun hj1 hj2 => absurd ⟨hj1, hj2⟩ hc⟩
    · have hij : i + 1 ≤ j := by omega
      split
      · obtain ⟨ha, hb⟩ := ih (i + 1) (t + pollWait ack (i - remoteWindow) t 500 + 1) j hij (by omega)
        exact ⟨by simp [ha], fun hj1 hj2 => by
          obtain ⟨w, hw⟩ := hb hj1 hj2
          exact ⟨w, by simp [hw]⟩⟩
      · obtain ⟨ha, hb⟩ := ih (i + 1) (t + 1) j hij (by omega)
        exact ⟨by simp [ha], fun hj1 hj2 => by
          obtain ⟨w, hw⟩ := hb hj1 hj2
          exact ⟨w, by simp [hw]⟩⟩

/-! ## Discovery (`discoverServices`)

The 3-second browse window accumulates `up`/`down` events; `error`
events are logged only.  When the window elapses, `browser.stop()` is
attempted and the accumulated list is resolved whether or not `stop`
throws; a browser that failed to construct resolves `[]`. -/

structure Svc where
  name : String
  host : String
  port : Nat
  hostname : String
deriving Repr, DecidableEq

inductive DiscEvt
  | up (s : Svc)
  | down (n : String)
  | errEvt
deriving Repr, DecidableEq

def discStep (acc : List Svc) : DiscEvt → List Svc
  | .up s => acc ++ [s]
  | .down n =>
    match acc.findIdx? (fun s => s.name == n) with
    | some i => acc.take i ++ acc.drop (i + 1)
    | none => acc
  | .errEvt => acc

def isErrEvt : DiscEvt → Bool
  | .errEvt => true
  | _ => false

/-- Outcome of `discoverServices`: `.ok` models the promise resolving,
`.error` a rejection.  Both arms of the final `if` resolve — that is
the `try { browser.stop(); resolve } catch { resolve }` of the
source. -/
def discoverOutcome (browserCreated : Bool) (events : List DiscEvt)
    (stopFails : Bool) : Except String (List Svc) :=
  if !browserCreated then .ok []
  else
    if stopFails then .ok (events.foldl discStep [])
    else .ok (events.foldl discStep [])

theorem foldl_discStep_filter (events : List DiscEvt) :
    ∀ acc, events.foldl discStep acc
      = (events.filter (fun e => !isErrEvt e)).foldl discStep acc := by
  induction events with
  | nil => intro acc; rfl
  | cons e evs ih =>
    intro acc
    cases e with
    | up s => simp [List.foldl_cons, List.filter_cons, isErrEvt, ih]
    | down n => simp [List.foldl_cons, List.filter_cons, isErrEvt, ih]
    | errEvt =>
      show evs.foldl discStep (discStep acc .errEvt) = _
      simp [List.filter_cons, isErrEvt, discStep, ih]

/-! ## Local sender engine (`sendFiles` / `sendFile`)

`sendFiles` iterates the file list in order, awaiting each
`sendFile`.  `sendFile` writes the metadata frame, streams the payload
bytes, writes the file-end frame (after the 100 ms settle delay) and
then installs `fileSavedResolver`, resolving on the `file-saved` ack or
on the 30-second timeout (which logs and proceeds — it does not abort).
After the last file resolves, `TRANSFER_COMPLETE` is emitted.

Labels are the two ways the per-file wait can end; a label arriving
while no resolver is installed is dropped, like a `file-saved` with no
waiting resolver or a stale timeout whose resolver identity check
fails. -/

inductive SLabel
  | ack
  | tmo
deriving Repr, DecidableEq

inductive SendEv
  | wroteMeta (m : TransferMetadata)
  | wrotePayload (bytes : List Nat)
  | wroteEnd
  | ackObserved (k : Nat)
  | ackTimeout (k : Nat)
  | transferComplete
deriving Repr, DecidableEq

structure SendSt where
  pending : List (String × List Nat)
  idx : Nat
  total : Nat
  waiting : Bool
  done : Bool
deriving Repr, DecidableEq

/-- The wire writes of `sendFile` for one file (metadata built from
`path.basename` and `fs.statSync(..).size`). -/
def emitFile (name : String) (bytes : List Nat) (k n : Nat) : List SendEv :=
  [.wroteMeta ⟨name, bytes.length, k, n⟩, .wrotePayload bytes, .wroteEnd]

/-- Advance the `sendFiles` loop as far as it can run without an
ack/timeout: start the next file, or finish. -/
def emitPhase (s : SendSt) : SendSt × List SendEv :=
  if s.waiting || s.done then (s, [])
  else match s.pending with
    | (name, bytes) :: rest =>
      ({ s with pending := rest, idx := s.idx + 1, waiting := true },
        emitFile name bytes (s.idx + 1) s.total)
    | [] => ({ s with done := true }, [.transferComplete])

def applyLabel (s : SendSt) : SLabel → SendSt × List SendEv
  | .ack =>
    if s.waiting then ({ s with waiting := false }, [.ackObserved s.idx]) else (s, [])
  | .tmo =>
    if s.waiting then ({ s with waiting := false }, [.ackTimeout s.idx]) else (s, [])

def runSender : SendSt → List SLabel → SendSt × List SendEv
  | s, [] => emitPhase s
  | s, l :: ls =>
    ((runSender (applyLabel (emitPhase s).1 l).1 ls).1,
      (emitPhase s).2 ++ ((applyLabel (emitPhase s).1 l).2
        ++ (runSender (applyLabel (emitPhase s).1 l).1 ls).2))

def initSender (files : List (String × List Nat)) : SendSt :=
  ⟨files, 0, files.length, false, false⟩

/-- Everything the sender writes or observes, in order. -/
def senderTrace (files : List (String × List Nat)) (labels : List SLabel) : List SendEv :=
  (runSender (initSender files) labels).2

theorem runSender_cons (s : SendSt) (l : SLabel) (ls : List SLabel) :
    runSender s (l :: ls)
      = ((runSender (applyLabel (emitPhase s).1 l).1 ls).1,
         (emitPhase s).2 ++ ((applyLabel (emitPhase s).1 l).2
           ++ (runSender (applyLabel (emitPhase s).1 l).1 ls).2)) := rfl

/-- Shape of a sender trace starting from file index `k`: each file is
metadata, payload, file-end, then the `file-saved` ack or the timeout
for that file, before anything of the next file; `transfer-complete`
only at the very end.  Partial runs may stop between files or right
after a file's frames. -/
inductive GoodTrace : Nat → List SendEv → Prop
  | nil (k : Nat) : GoodTrace k []
  | complete (k : Nat) : GoodTrace k [.transferComplete]
  | fileNoRes (k : Nat) (m : TransferMetadata) (p : List Nat) :
      m.currentFile = k + 1 →
      GoodTrace k [.wroteMeta m, .wrotePayload p, .wroteEnd]
  | file (k : Nat) (m : TransferMetadata) (p : List Nat) (res : SendEv)
      (tr : List SendEv) :
      m.currentFile = k + 1 →
      (res = .ackObserved (k + 1) ∨ res = .ackTimeout (k + 1)) →
      GoodTrace (k + 1) tr →
      GoodTrace k (.wroteMeta m :: .wrotePayload p :: .wroteEnd :: res :: tr)

theorem runSender_done (s : SendSt) (hw : s.waiting = false) (hd : s.done = true) :
    ∀ ls, runSender s ls = (s, []) := by
  intro ls
  induction ls with
  | nil =>
    show emitPhase s = (s, [])
    unfold emitPhase
    rw [hw, hd]
    simp
  | cons l ls2 ih =>
    rw [runSender_cons]
    have he : emitPhase s = (s, []) := by
      unfold emitPhase
      rw [hw, hd]
      simp
    rw [he]
    have hl : applyLabel s l = (s, []) := by
      cases l <;> simp [applyLabel, hw]
    rw [hl]
    rw [ih]
    rfl

theorem runSender_notWaiting :
    ∀ labels : List SLabel, ∀ s : SendSt, s.waiting = false → s.done = false →
      GoodTrace s.idx (runSender s labels).2 := by
  intro labels
  induction labels with
  | nil =>
    intro s hw hd
    show GoodTrace s.idx (emitPhase s).2
    unfold emitPhase
    rw [hw, hd]
    simp only [Bool.or_self, Bool.false_eq_true, if_false]
    match hp : s.pending with
    | [] => exact GoodTrace.complete s.idx
    | (name, bytes) :: rest =>
      exact GoodTrace.fileNoRes s.idx ⟨name, bytes.length, s.idx + 1, s.total⟩ bytes rfl
  | cons l ls ih =>
    intro s hw hd
    rw [runSender_cons]
    match hp : s.pending with
    | [] =>
      have hemit : emitPhase s = ({ s with done := true }, [.transferComplete]) := by
        unfold emitPhase
        rw [hw, hd, hp]
        simp
      rw [hemit]
      have hlab : applyLabel { s with done := true } l = ({ s with done := true }, []) := by
        cases l <;> simp [applyLabel, hw]
      rw [hlab]
      rw [runSender_done { s with done := true } hw rfl ls]
      exact GoodTrace.complete s.idx
    | (name, bytes) :: rest =>
      have hemit : emitPhase s
          = ({ s with pending := rest, idx := s.idx + 1, waiting := true },
             emitFile name bytes (s.idx + 1) s.total) := by
        unfold emitPhase
        rw [hw, hd, hp]
        simp
      rw [hemit]
      have hlab : applyLabel { s with pending := rest, idx := s.idx + 1, waiting := true } l
          = ({ s with pending := rest, idx := s.idx + 1, waiting := false },
             [if l = .ack then .ackObserved (s.idx + 1) else .ackTimeout (s.idx + 1)]) := by
        cases l <;> simp [applyLabel]
      rw [hlab]
      have hrec := ih { s with pending := rest, idx := s.idx + 1, waiting := false } rfl hd
      show GoodTrace s.idx (emitFile name bytes (s.idx + 1) s.total
        ++ ([if l = .ack then SendEv.ackObserved (s.idx + 1) else SendEv.ackTimeout (s.idx + 1)]
          ++ (runSender { s with pending := rest, idx := s.idx + 1, waiting := false } ls).2))
      refine GoodTrace.file s.idx ⟨name, bytes.length, s.idx + 1, s.total⟩ bytes _ _ rfl ?_ hrec
      cases l with
      | ack => left; rfl
      | tmo => right; rfl

/-- All timeouts still drive the transfer to completion: the 30 s
ack timeout resolves the wait and the loop proceeds to the next file
and finally to `transfer-complete`. -/
theorem runSender_timeouts_complete :
    ∀ files : List (String × List Nat), ∀ s : SendSt,
      s.pending = files → s.waiting = false → s.done = false →
      SendEv.transferComplete ∈ (runSender s (List.replicate files.length .tmo)).2 := by
  intro files
  induction files with
  | nil =>
    intro s hp hw hd
    show SendEv.transferComplete ∈ (emitPhase s).2
    unfold emitPhase
    rw [hw, hd, hp]
    simp
  | cons f rest ih =>
    intro s hp hw hd
    obtain ⟨name, bytes⟩ := f
    show SendEv.transferComplete ∈ (runSender s (.tmo :: List.replicate rest.length .tmo)).2
    rw [runSender_cons]
    have hemit : emitPhase s
        = ({ s with pending := rest, idx := s.idx + 1, waiting := true },
           emitFile name bytes (s.idx + 1) s.total) := by
      unfold emitPhase
      rw [hw, hd, hp]
      simp
    rw [hemit]
    have hlab : applyLabel { s with pending := rest, idx := s.idx + 1, waiting := true } .tmo
        = ({ s with pending := rest, idx := s.idx + 1, waiting := false },
           [.ackTimeout (s.idx + 1)]) := by
      simp [applyLabel]
    rw [hlab]
    have hrec := ih { s with pending := rest, idx := s.idx + 1, waiting := false } rfl rfl hd
    simp only [List.mem_append]
    right
    right
    exact hrec

/-- From the trace shape: a metadata frame for a file beyond the first
outstanding one appears only after the previous file's ack (or its
timeout) was observed. -/
theorem goodTrace_meta_after_res :
    ∀ {k : Nat} {tr : List SendEv}, GoodTrace k tr →
    ∀ pre post (m : TransferMetadata), tr = pre ++ .wroteMeta m :: post →
      k + 1 ≤ m.currentFile
      ∧ (k + 2 ≤ m.currentFile →
          (SendEv.ackObserved (m.currentFile - 1) ∈ pre
            ∨ SendEv.ackTimeout (m.currentFile - 1) ∈ pre)) := by
  intro k tr h
  induction h with
  | nil k =>
    intro pre post m heq
    exact absurd heq.symm (by simp)
  | complete k =>
    intro pre post m heq
    cases pre with
    | nil =>
      rw [List.nil_append] at heq
      injection heq with h1 h2
      exact absurd h1 (by simp)
    | cons a pre' =>
      rw [List.cons_append] at heq
      injection heq with h1 h2
      exact absurd h2.symm (by simp)
  | fileNoRes k m0 p hm =>
    intro pre post m heq
    cases pre with
    | nil =>
      rw [List.nil_append] at heq
      injection heq with h1 h2
      injection h1 with hm0
      subst hm0
      exact ⟨by omega, fun hc => by omega⟩
    | cons a pre' =>
      rw [List.cons_append] at heq
      injection heq with h1 heq
      cases pre' with
      | nil =>
        rw [List.nil_append] at heq
        injection heq with h2 heq
        exact absurd h2 (by simp)
      | cons b pre'' =>
        rw [List.cons_append] at heq
        injection heq with h2 heq
        cases pre'' with
        | nil =>
          rw [List.nil_append] at heq
          injection heq with h3 heq
          exact absurd h3 (by simp)
        | cons c pre3 =>
          rw [List.cons_append] at heq
          injection heq with h3 heq
          exact absurd heq.symm (by simp)
  | file k m0 p res tr' hm hres htr ih =>
    intro pre post m heq
    cases pre with
    | nil =>
      rw [List.nil_append] at heq
      injection heq with h1 h2
      injection h1 with hm0
      subst hm0
      exact ⟨by omega, fun hc => by omega⟩
    | cons a pre' =>
      rw [List.cons_append] at heq
      injection heq with h1 heq
      subst h1
      cases pre' with
      | nil =>
        rw [List.nil_append] at heq
        injection heq with h2 heq
        exact absurd h2 (by simp)
      | cons b pre'' =>
        rw [List.cons_append] at heq
        injection heq with h2 heq
        subst h2
        cases pre'' with
        | nil =>
          rw [List.nil_append] at heq
          injection heq with h3 heq
          exact absurd h3 (by simp)
        | cons c pre3 =>
          rw [List.cons_append] at heq
          injection heq with h3 heq
          subst h3
          cases pre3 with
          | nil =>
            rw [List.nil_append] at heq
            injection heq with h4 heq
            rcases hres with hr | hr <;> rw [hr] at h4 <;> exact absurd h4 (by simp)
          | cons d pre4 =>
            rw [List.cons_append] at heq
            injection heq with h4 heq
            subst h4
            obtain ⟨hge, hres'⟩ := ih pre4 post m heq
            refine ⟨by omega, fun hc => ?_⟩
            by_cases hcf : m.currentFile = k + 2
            · rcases hres with hr | hr
              · left
                rw [hcf, hr]
                simp
              · right
                rw [hcf, hr]
                simp
            · rcases hres' (by omega) with hmem | hmem
              · left
                simp [hmem]
              · right
                simp [hmem]

/-! ## Properties of generated codes and of the auth exchange -/

theorem generateConnectionCode_shape (b1 b2 b3 : Nat) :
    generateConnectionCode [b1, b2, b3]
      = [upperByte (hexDig (b1 / 16)), upperByte (hexDig (b1 % 16)),
         upperByte (hexDig (b2 / 16)), 45,
         upperByte (hexDig (b2 % 16)),
         upperByte (hexDig (b3 / 16)), upperByte (hexDig (b3 % 16))] := rfl

/-- An uppercased hex digit is `0`–`9` or `A`–`F`. -/
theorem upperByte_hexDig_range' (d : Nat) (hd : d < 16) :
    (48 ≤ upperByte (hexDig d) ∧ upperByte (hexDig d) ≤ 57)
      ∨ (65 ≤ upperByte (hexDig d) ∧ upperByte (hexDig d) ≤ 70) := by
  unfold upperByte hexDig
  split_ifs with h1 h2 h2 <;> omega

/-- Every byte of a generated code is a dash or an uppercase hex digit. -/
theorem generateConnectionCode_chars (b1 b2 b3 : Nat)
    (hb1 : b1 < 256) (hb2 : b2 < 256) (hb3 : b3 < 256) :
    ∀ c ∈ generateConnectionCode [b1, b2, b3],
      c = 45 ∨ (48 ≤ c ∧ c ≤ 57) ∨ (65 ≤ c ∧ c ≤ 70) := by
  intro c hc
  rw [generateConnectionCode_shape] at hc
  have hm1 := upperByte_hexDig_range' (b1 / 16) (by omega)
  have hm2 := upperByte_hexDig_range' (b1 % 16) (by omega)
  have hm3 := upperByte_hexDig_range' (b2 / 16) (by omega)
  have hm4 := upperByte_hexDig_range' (b2 % 16) (by omega)
  have hm5 := upperByte_hexDig_range' (b3 / 16) (by omega)
  have hm6 := upperByte_hexDig_range' (b3 % 16) (by omega)
  simp only [List.mem_cons, List.not_mem_nil, or_false] at hc
  rcases hc with h | h | h | h | h | h | h <;> subst h <;> omega

theorem upperByte_fix {b : Nat} (h : ¬ (97 ≤ b ∧ b ≤ 122)) : upperByte b = b := by
  unfold upperByte
  rw [if_neg h]

/-- A generated code is already uppercase. -/
theorem generateConnectionCode_upper (b1 b2 b3 : Nat)
    (hb1 : b1 < 256) (hb2 : b2 < 256) (hb3 : b3 < 256) :
    (generateConnectionCode [b1, b2, b3]).map upperByte
      = generateConnectionCode [b1, b2, b3] := by
  rw [generateConnectionCode_shape]
  have hfix : ∀ d, d < 16 → upperByte (upperByte (hexDig d)) = upperByte (hexDig d) := by
    intro d hd
    rcases upperByte_hexDig_range' d hd with h | h <;> exact upperByte_fix (by omega)
  have h45 : upperByte 45 = 45 := by decide
  simp only [List.map_cons, List.map_nil]
  rw [h45, hfix (b1 / 16) (by omega), hfix (b1 % 16) (by omega),
      hfix (b2 / 16) (by omega), hfix (b2 % 16) (by omega),
      hfix (b3 / 16) (by omega), hfix (b3 % 16) (by omega)]

theorem dropWhile_eq_self_of {p : Nat → Bool} (l : List Nat)
    (h : ∀ b ∈ l, p b = false) : l.dropWhile p = l := by
  cases l with
  | nil => rfl
  | cons a rest =>
    rw [List.dropWhile_cons, h a (by simp)]
    simp

/-- Trimming a whitespace-free byte string is the identity. -/
theorem normCode_of_no_ws (l : List Nat) (h : ∀ b ∈ l, isWs b = false) :
    normCode l = l.map upperByte := by
  unfold normCode
  rw [dropWhile_eq_self_of l h,
      dropWhile_eq_self_of l.reverse (fun b hb => h b (List.mem_reverse.mp hb)),
      List.reverse_reverse]

/-- A typed code that equals the session code up to letter case is
normalised to exactly the session code. -/
theorem normCode_case_insensitive (b1 b2 b3 : Nat) (input : List Nat)
    (hb1 : b1 < 256) (hb2 : b2 < 256) (hb3 : b3 < 256)
    (hcase : input.map upperByte = (generateConnectionCode [b1, b2, b3]).map upperByte) :
    normCode input = generateConnectionCode [b1, b2, b3] := by
  have hnw : ∀ b ∈ input, isWs b = false := by
    intro b hb
    have hub : upperByte b ∈ (generateConnectionCode [b1, b2, b3]).map upperByte := by
      rw [← hcase]
      exact List.mem_map_of_mem upperByte hb
    rw [List.mem_map] at hub
    obtain ⟨c, hc, hce⟩ := hub
    have hr := generateConnectionCode_chars b1 b2 b3 hb1 hb2 hb3 c hc
    have hcu : upperByte c = c := upperByte_fix (by omega)
    rw [hcu] at hce
    by_contra hws
    have hwb : b = 32 ∨ b = 9 ∨ b = 10 ∨ b = 13 := by
      simp only [isWs, Bool.or_eq_true, beq_iff_eq, Bool.not_eq_false] at hws
      rcases hws with h | h
      · rcases h with h | h
        · rcases h with h | h
          · exact Or.inl h
          · exact Or.inr (Or.inl h)
        · exact Or.inr (Or.inr (Or.inl h))
      · exact Or.inr (Or.inr (Or.inr h))
    have : upperByte b = b := upperByte_fix (by omega)
    omega
  rw [normCode_of_no_ws input hnw, hcase]
  exact generateConnectionCode_upper b1 b2 b3 hb1 hb2 hb3

/-- No newline appears in an auth line over a newline-free code. -/
theorem authLine_no_nl (code : List Nat) (h10 : (10 : Nat) ∉ code) :
    (10 : Nat) ∉ authLineBytes code := by
  intro hc
  unfold authLineBytes at hc
  rw [List.mem_append, List.mem_append] at hc
  rcases hc with hc | hc | hc
  · revert hc; decide
  · exact h10 hc
  · revert hc; decide

/-- One unauthenticated data event carrying exactly one auth line:
matching codes promote, anything else writes the error record and
destroys. -/
theorem authDecision_authLine (sessionCode code : List Nat)
    (h34 : (34 : Nat) ∉ code) (h10 : (10 : Nat) ∉ code) :
    authDecision sessionCode (authLineBytes code ++ [10])
      = if code = sessionCode then ⟨[authSuccessBytes ++ [10]], false, true⟩
        else ⟨[errorLineBytes invalidCodeMsg ++ [10]], true, false⟩ := by
  unfold authDecision
  rw [splitNl_append_nl _ (authLine_no_nl code h10)]
  have hne : authLineBytes code ≠ [] := by
    unfold authLineBytes
    intro hc
    have : (authHeadBytes ++ (code ++ (34 :: [125]))).length = 0 := by rw [hc]; rfl
    simp [List.length_append] at this
  show authHandler sessionCode [authLineBytes code, []] = _
  unfold authHandler
  rw [if_neg hne]
  simp only [decode_authLine code h34]

/-- A generated session code contains neither a quote nor a newline. -/
theorem generateConnectionCode_clean (b1 b2 b3 : Nat)
    (hb1 : b1 < 256) (hb2 : b2 < 256) (hb3 : b3 < 256) :
    (34 : Nat) ∉ generateConnectionCode [b1, b2, b3]
      ∧ (10 : Nat) ∉ generateConnectionCode [b1, b2, b3] := by
  constructor
  · intro hc
    have := generateConnectionCode_chars b1 b2 b3 hb1 hb2 hb3 34 hc
    omega
  · intro hc
    have := generateConnectionCode_chars b1 b2 b3 hb1 hb2 hb3 10 hc
    omega

/-- The receiver data handler destroys on a chunk that is one error
record: mid-transfer (`isResolved = true`) it destroys silently, during
connect it destroys and rejects with `Invalid connection code`. -/
theorem connDataStep_errorLine (isResolved : Bool) (msg : String)
    (hp : PlainName msg) (h10 : (10 : Nat) ∉ strBytes msg) :
    connDataStep isResolved (errorLineBytes msg ++ [10])
      = if isResolved then .destroyOnly else .destroyReject := by
  have hnl : (10 : Nat) ∉ errorLineBytes msg := by
    intro hc
    unfold errorLineBytes at hc
    rw [List.mem_append, List.mem_append] at hc
    rcases hc with hc | hc | hc
    · revert hc; decide
    · exact h10 hc
    · revert hc; decide
  unfold connDataStep
  rw [splitNl_append_nl _ hnl]
  show connLines isResolved [errorLineBytes msg, []] = _
  unfold connLines
  have hblank : (errorLineBytes msg).all (fun b => b == 32 || b == 9 || b == 13) = false := by
    unfold errorLineBytes
    rw [List.all_append]
    have h1 : errorHeadBytes.all (fun b => b == 32 || b == 9 || b == 13) = false := by
      decide
    rw [h1]
    rfl
  rw [if_neg (by rw [hblank]; exact Bool.false_ne_true)]
  simp only [decode_errorLine msg hp]

/-! # The claims

Each claim of the specification is settled by one theorem below (plus,
for refuted claims, a counterexample theorem, and for theorems with
hypotheses, a closed witness instantiating them). -/

/-- C1: for every local-mode transfer and every way the transport
splits the byte stream into chunks, `processDataBuffer` consumes
exactly `fileSize` bytes as opaque payload (the 4-null-byte delimiter
is not interpreted inside the payload run — payloads here may contain
it) and afterwards parses delimiter-terminated control frames; the
drained events are each file's payload byte-exactly, in order. -/
theorem claim_C1 (fs : List (TransferMetadata × List Nat))
    (hwf : WellFormed fs) (cs : List (List Nat)) (hcs : cs.join = filesWire fs) :
    ingestList initRecv cs
      = ⟨initRecv, fs.map (fun f => REv.saved f.1 f.2), true⟩ :=
  ingest_filesWire fs hwf cs hcs

/-- C1 witness: a 6-byte payload that contains the delimiter
`00 00 00 00` in its interior, delivered split at an arbitrary byte
boundary, followed by a zero-byte second file. -/
theorem claim_C1_witness :
    ingestList initRecv
        [(filesWire [(⟨"a.txt", 6, 1, 2⟩, [1, 0, 0, 0, 0, 2]), (⟨"b", 0, 2, 2⟩, [])]).take 97,
         (filesWire [(⟨"a.txt", 6, 1, 2⟩, [1, 0, 0, 0, 0, 2]), (⟨"b", 0, 2, 2⟩, [])]).drop 97]
      = ⟨initRecv,
         [REv.saved ⟨"a.txt", 6, 1, 2⟩ [1, 0, 0, 0, 0, 2], REv.saved ⟨"b", 0, 2, 2⟩ []],
         true⟩ :=
  claim_C1 [(⟨"a.txt", 6, 1, 2⟩, [1, 0, 0, 0, 0, 2]), (⟨"b", 0, 2, 2⟩, [])] (by decide)
    [(filesWire [(⟨"a.txt", 6, 1, 2⟩, [1, 0, 0, 0, 0, 2]), (⟨"b", 0, 2, 2⟩, [])]).take 97,
     (filesWire [(⟨"a.txt", 6, 1, 2⟩, [1, 0, 0, 0, 0, 2]), (⟨"b", 0, 2, 2⟩, [])]).drop 97]
    (by decide)

/-- C2: the receiver never writes over an existing name: the requested
name is used when free, and otherwise `base (k)ext` for the least
`k ≥ 1` whose name is not in the directory. -/
theorem claim_C2 (dir : List (List Nat)) (name : List Nat) :
    getUniqueFilePath dir name ∉ dir
    ∧ (name ∉ dir → getUniqueFilePath dir name = name)
    ∧ (name ∈ dir → ∃ k, 1 ≤ k
        ∧ getUniqueFilePath dir name = mkName (extSplit name).1 k (extSplit name).2
        ∧ mkName (extSplit name).1 k (extSplit name).2 ∉ dir
        ∧ ∀ j, 1 ≤ j → j < k → mkName (extSplit name).1 j (extSplit name).2 ∈ dir) :=
  ⟨getUniqueFilePath_not_mem dir name,
   (getUniqueFilePath_spec dir name).1,
   (getUniqueFilePath_spec dir name).2⟩

/-- C2 witness: a directory already holding `a.txt` and `a (1).txt`;
the chosen name avoids both. -/
theorem claim_C2_witness :
    getUniqueFilePath [strBytes "a.txt", mkName (strBytes "a") 1 (strBytes ".txt")]
        (strBytes "a.txt")
      ∉ [strBytes "a.txt", mkName (strBytes "a") 1 (strBytes ".txt")]
    ∧ ∃ k, 1 ≤ k
        ∧ getUniqueFilePath [strBytes "a.txt", mkName (strBytes "a") 1 (strBytes ".txt")]
            (strBytes "a.txt")
          = mkName (extSplit (strBytes "a.txt")).1 k (extSplit (strBytes "a.txt")).2
        ∧ mkName (extSplit (strBytes "a.txt")).1 k (extSplit (strBytes "a.txt")).2
          ∉ [strBytes "a.txt", mkName (strBytes "a") 1 (strBytes ".txt")]
        ∧ ∀ j, 1 ≤ j → j < k →
            mkName (extSplit (strBytes "a.txt")).1 j (extSplit (strBytes "a.txt")).2
              ∈ [strBytes "a.txt", mkName (strBytes "a") 1 (strBytes ".txt")] :=
  ⟨(claim_C2 [strBytes "a.txt", mkName (strBytes "a") 1 (strBytes ".txt")]
      (strBytes "a.txt")).1,
   (claim_C2 [strBytes "a.txt", mkName (strBytes "a") 1 (strBytes ".txt")]
      (strBytes "a.txt")).2.2 (by decide)⟩

/-- C3 counterexample: after an authenticated receiver disconnects
while the sender is not stopping, the sender is listening,
unauthenticated and not stopping — yet the advertisement is absent,
because the `close` handler calls `stopAdvertising()` and its
re-advertise call is commented out.  This refutes the claimed `iff`
(and its "in particular" consequence). -/
theorem claim_C3_cex :
    (reachLife 1 [.authOk, .sockClose]).listening = true
    ∧ (reachLife 1 [.authOk, .sockClose]).authed = false
    ∧ (reachLife 1 [.authOk, .sockClose]).stopping = false
    ∧ (reachLife 1 [.authOk, .sockClose]).advertising = false := by
  decide

/-- C3 (amended): only one direction holds — whenever the
advertisement is present, the sender is listening, unauthenticated and
not stopping.  The converse fails after an authenticated receiver
disconnects. -/
theorem claim_C3 (port : Nat) (evs : List LifeEv) :
    (reachLife port evs).advertising = true →
      (reachLife port evs).listening = true
      ∧ (reachLife port evs).authed = false
      ∧ (reachLife port evs).stopping = false :=
  reachLife_inv port evs

/-- C3 witness: right after `startSender` the advertisement is present
and the invariant's right-hand side holds. -/
theorem claim_C3_witness :
    (reachLife 1 []).listening = true
    ∧ (reachLife 1 []).authed = false
    ∧ (reachLife 1 []).stopping = false :=
  claim_C3 1 [] (by decide)

/-- C4: (1) in every sender trace, the metadata frame of any file after
the first is preceded by the observation of the previous file's
`file-saved` ack or by that file's 30-second timeout; (2) the timeout
does not abort — even if every file times out the sender still reaches
`transfer-complete`; (3) the receiver emits `file-saved` exactly once
per file, in file order, for every chunking of the stream. -/
theorem claim_C4 :
    (∀ (files : List (String × List Nat)) (labels : List SLabel)
        (pre post : List SendEv) (m : TransferMetadata),
        senderTrace files labels = pre ++ SendEv.wroteMeta m :: post →
        1 ≤ m.currentFile
        ∧ (2 ≤ m.currentFile →
            SendEv.ackObserved (m.currentFile - 1) ∈ pre
              ∨ SendEv.ackTimeout (m.currentFile - 1) ∈ pre))
    ∧ (∀ files : List (String × List Nat),
        SendEv.transferComplete
          ∈ senderTrace files (List.replicate files.length SLabel.tmo))
    ∧ (∀ fs : List (TransferMetadata × List Nat), WellFormed fs →
        ∀ cs : List (List Nat), cs.join = filesWire fs →
        (ingestList initRecv cs).evs = fs.map (fun f => REv.saved f.1 f.2)) := by
  refine ⟨?_, ?_, ?_⟩
  · intro files labels pre post m heq
    have hg : GoodTrace (initSender files).idx
        (runSender (initSender files) labels).2 :=
      runSender_notWaiting labels (initSender files) rfl rfl
    obtain ⟨h1, h2⟩ := goodTrace_meta_after_res hg pre post m heq
    have hidx : (initSender files).idx = 0 := rfl
    rw [hidx] at h1 h2
    exact ⟨by omega, fun hc => h2 (by omega)⟩
  · intro files
    exact runSender_timeouts_complete files (initSender files) rfl rfl rfl
  · intro fs hwf cs hcs
    rw [ingest_filesWire fs hwf cs hcs]

/-- C4 witness: a two-file transfer with both acks observed — the
second file's metadata frame is preceded by the first file's ack. -/
theorem claim_C4_witness :
    SendEv.ackObserved 1
        ∈ [SendEv.wroteMeta ⟨"a", 1, 1, 2⟩, SendEv.wrotePayload [7],
           SendEv.wroteEnd, SendEv.ackObserved 1]
      ∨ SendEv.ackTimeout 1
        ∈ [SendEv.wroteMeta ⟨"a", 1, 1, 2⟩, SendEv.wrotePayload [7],
           SendEv.wroteEnd, SendEv.ackObserved 1] :=
  (claim_C4.1 [("a", [7]), ("b", [9])] [.ack, .ack]
    [SendEv.wroteMeta ⟨"a", 1, 1, 2⟩, SendEv.wrotePayload [7],
     SendEv.wroteEnd, SendEv.ackObserved 1]
    [SendEv.wrotePayload [9], SendEv.wroteEnd, SendEv.ackObserved 2,
     SendEv.transferComplete]
    ⟨"b", 1, 2, 2⟩ (by decide)).2 (by decide)

/-- C5: a mismatched auth code makes the sender write exactly the
`error{Invalid connection code}` record, destroy the socket and never
promote it; and the receiver, seeing that error record while its
connect promise is unresolved, destroys its socket and rejects. -/
theorem claim_C5 (sessionCode code : List Nat) (hne : code ≠ sessionCode)
    (h34 : (34 : Nat) ∉ code) (h10 : (10 : Nat) ∉ code) :
    authDecision sessionCode (authLineBytes code ++ [10])
      = ⟨[errorLineBytes invalidCodeMsg ++ [10]], true, false⟩
    ∧ connDataStep false (errorLineBytes invalidCodeMsg ++ [10])
      = ConnAct.destroyReject := by
  constructor
  · rw [authDecision_authLine sessionCode code h34 h10, if_neg hne]
  · have h := connDataStep_errorLine false invalidCodeMsg (by decide) (by decide)
    simpa using h

/-- C5 witness: the spec's own scenario — `ABC-DEF` against session
code `XYZ-123`. -/
theorem claim_C5_witness :
    authDecision (strBytes "XYZ-123") (authLineBytes (strBytes "ABC-DEF") ++ [10])
      = ⟨[errorLineBytes invalidCodeMsg ++ [10]], true, false⟩
    ∧ connDataStep false (errorLineBytes invalidCodeMsg ++ [10])
      = ConnAct.destroyReject :=
  claim_C5 (strBytes "XYZ-123") (strBytes "ABC-DEF") (by decide) (by decide) (by decide)

/-- C6 counterexample: with no ACK ever arriving (`ack ≡ 0`) and 22
chunks, chunk 21 (`≥ W = 20`) is still sent although no ACK with
`receivedChunks ≥ 21 − 20` arrived and no wait — not even a timed-out
one — ran for it: the wait is executed only when `i % 20 === 0`, so
chunk 21 is sent unconditionally.  This refutes "for every chunk index
`i ≥ W` … only after an ACK with `receivedChunks ≥ i − W` has
arrived". -/
theorem claim_C6_cex :
    RemEv.sent 21 ∈ remoteSend (fun _ => 0) 22
    ∧ (remoteSend (fun _ => 0) 22).filter
        (fun e => match e with | .waited i _ _ => i == 21 | _ => false) = []
    ∧ (remoteSend (fun _ => 0) 22).filter
        (fun e => match e with | .waited _ _ b => b | _ => false) = [] := by
  decide

/-- C6 (amended): every chunk below the total is sent; the
flow-control wait runs exactly before the chunks at positive multiples
of `W = 20` (other indices, `i = 21` included, are sent without any
check), and each wait polls until `acknowledgedChunks ≥ i − W` or
until its 500-poll timeout, after which sending continues. -/
theorem claim_C6 (ack : Nat → Nat) (n i : Nat) (hi : i < n) :
    RemEv.sent i ∈ remoteSend ack n
    ∧ (0 < i → i % remoteWindow = 0 →
        ∃ w, RemEv.waited i w (w == 500) ∈ remoteSend ack n)
    ∧ (∀ j w b, RemEv.waited j w b ∈ remoteSend ack n →
        0 < j ∧ j % remoteWindow = 0)
    ∧ (∀ minReq t, pollWait ack minReq t 500 = 500
        ∨ minReq ≤ ack (t + pollWait ack minReq t 500)) := by
  refine ⟨?_, ?_, ?_, ?_⟩
  · exact (remote_sent_all ack n 0 0 i (by omega) (by omega)).1
  · intro h1 h2
    exact (remote_sent_all ack n 0 0 i (by omega) (by omega)).2 h1 h2
  · intro j w b h
    exact remote_waited_multiple ack n 0 0 j w b h
  · intro minReq t
    exact pollWait_spec ack minReq 500 t

/-- C6 witness: 21 chunks with acks arriving over time — chunk 20 is
sent and its wait event exists. -/
theorem claim_C6_witness :
    RemEv.sent 20 ∈ remoteSend (fun t => t) 21
    ∧ ∃ w, RemEv.waited 20 w (w == 500) ∈ remoteSend (fun t => t) 21 :=
  ⟨(claim_C6 (fun t => t) 21 20 (by decide)).1,
   (claim_C6 (fun t => t) 21 20 (by decide)).2.1 (by decide) (by decide)⟩

/-- C7: a generated session code is six uppercase hex characters with a
dash after the third; a typed code equal to it up to letter case is
normalised (`trim().toUpperCase()`) to exactly the session code and
authentication then succeeds. -/
theorem claim_C7 (b1 b2 b3 : Nat) (input : List Nat)
    (hb1 : b1 < 256) (hb2 : b2 < 256) (hb3 : b3 < 256)
    (hcase : input.map upperByte
      = (generateConnectionCode [b1, b2, b3]).map upperByte) :
    (∃ a b c d e f,
      generateConnectionCode [b1, b2, b3] = [a, b, c, 45, d, e, f]
      ∧ ∀ x ∈ [a, b, c, d, e, f], (48 ≤ x ∧ x ≤ 57) ∨ (65 ≤ x ∧ x ≤ 70))
    ∧ normCode input = generateConnectionCode [b1, b2, b3]
    ∧ authDecision (generateConnectionCode [b1, b2, b3])
        (authLineBytes (normCode input) ++ [10])
      = ⟨[authSuccessBytes ++ [10]], false, true⟩ := by
  have hnorm := normCode_case_insensitive b1 b2 b3 input hb1 hb2 hb3 hcase
  have hclean := generateConnectionCode_clean b1 b2 b3 hb1 hb2 hb3
  refine ⟨⟨_, _, _, _, _, _, generateConnectionCode_shape b1 b2 b3, ?_⟩, hnorm, ?_⟩
  · intro x hx
    simp only [List.mem_cons, List.not_mem_nil, or_false] at hx
    have r1 := upperByte_hexDig_range' (b1 / 16) (by omega)
    have r2 := upperByte_hexDig_range' (b1 % 16) (by omega)
    have r3 := upperByte_hexDig_range' (b2 / 16) (by omega)
    have r4 := upperByte_hexDig_range' (b2 % 16) (by omega)
    have r5 := upperByte_hexDig_range' (b3 / 16) (by omega)
    have r6 := upperByte_hexDig_range' (b3 % 16) (by omega)
    rcases hx with h | h | h | h | h | h <;> subst h <;> omega
  · rw [hnorm, authDecision_authLine _ _ hclean.1 hclean.2, if_pos rfl]

/-- C7 witness: random bytes `AB CD EF` give code `ABC-DEF`; the typed
lowercase `abc-def` is normalised to it and authenticates. -/
theorem claim_C7_witness :
    normCode (strBytes "abc-def") = generateConnectionCode [171, 205, 239]
    ∧ authDecision (generateConnectionCode [171, 205, 239])
        (authLineBytes (normCode (strBytes "abc-def")) ++ [10])
      = ⟨[authSuccessBytes ++ [10]], false, true⟩ :=
  (claim_C7 171 205 239 (strBytes "abc-def")
    (by decide) (by decide) (by decide) (by decide)).2

/-- C8: a single 0-byte file `empty.bin` end-to-end: the sender writes
metadata with `fileSize 0`, an empty payload run, then the file-end
frame, and after the `file-saved` ack emits `transfer-complete`; the
receiver drains the stream to a single `saved` event whose contents are
the empty byte string (a 0-byte file), returning to the idle state. -/
theorem claim_C8 :
    senderTrace [("empty.bin", [])] [SLabel.ack]
      = [SendEv.wroteMeta ⟨"empty.bin", 0, 1, 1⟩, SendEv.wrotePayload [],
         SendEv.wroteEnd, SendEv.ackObserved 1, SendEv.transferComplete]
    ∧ ingestList initRecv [filesWire [(⟨"empty.bin", 0, 1, 1⟩, [])]]
      = ⟨initRecv, [REv.saved ⟨"empty.bin", 0, 1, 1⟩ []], true⟩ := by
  constructor
  · rfl
  · exact ingest_filesWire [(⟨"empty.bin", 0, 1, 1⟩, [])] (by decide) _ (by simp)

/-- C9: `discoverServices` resolves (never rejects) for every browse
run — whatever up/down/error events arrive and whether or not
`browser.stop()` throws — and the resolved list is the fold of the
non-error events (errors are logged only; a browser that failed to
construct resolves the empty list). -/
theorem claim_C9 (created : Bool) (events : List DiscEvt) (stopFails : Bool) :
    ∃ l : List Svc, discoverOutcome created events stopFails = .ok l
      ∧ (created = true →
          l = (events.filter (fun e => !isErrEvt e)).foldl discStep []) := by
  cases created with
  | false =>
    refine ⟨[], ?_, fun h => by cases h⟩
    unfold discoverOutcome
    rfl
  | true =>
    refine ⟨events.foldl discStep [], ?_, fun _ => foldl_discStep_filter events []⟩
    unfold discoverOutcome
    cases stopFails <;> rfl

/-- C9 witness: one service found, then a browse error — still resolves
with the one service. -/
theorem claim_C9_witness :
    ∃ l : List Svc,
      discoverOutcome true [DiscEvt.up ⟨"n", "h", 1, "hn"⟩, DiscEvt.errEvt] false = .ok l
      ∧ (true = true →
          l = ([DiscEvt.up ⟨"n", "h", 1, "hn"⟩, DiscEvt.errEvt].filter
                (fun e => !isErrEvt e)).foldl discStep []) :=
  claim_C9 true [DiscEvt.up ⟨"n", "h", 1, "hn"⟩, DiscEvt.errEvt] false

/-- C10: the authenticated receiver's data handler JSON-sniffs every
chunk line by line before buffering: a payload chunk carrying a
newline-terminated `error` record destroys the connection mid-transfer
(`destroyOnly`), and an `auth-success` line while the connect promise
is unresolved makes the handler return before buffering, dropping the
rest of the chunk (here bytes `[1, 2, 3]`). -/
theorem claim_C10 :
    connDataStep true (errorLineBytes "x" ++ [10]) = ConnAct.destroyOnly
    ∧ connDataStep false (authSuccessBytes ++ (10 :: [1, 2, 3]))
      = ConnAct.resolveOk := by
  decide

end FileTransfer
